import Mathlib

/-!
# Xapian multi-database postlist merge and Honey cursor

A shallow embedding of

* `xapian-core/backends/multi/multi_database.cc` (`MultiPostList`, `MultiDatabase`), and
* `xapian-core/backends/honey/honey_cursor.h` (`HoneyCursor`),

followed by theorems about the embedded definitions.

Conventions.

* `docid` and `doccount` are typedefs of an unsigned integer type declared outside the
  embedded files.  Their values are embedded as `Nat`, and the number of values of the
  type is a parameter (`docid_modulus`, `2 ^ 32` for a 32-bit type): the product and sum
  that `MultiPostList::next` computes are reduced modulo it (`globaldoc`).  The
  subtraction `- 1` is only ever applied to ids `≥ 1`; `/`, `%` and the comparisons do
  not leave the range.
* `weight` is a type parameter `W` carrying only `0` and `+`; no algebraic law is assumed,
  so sums are stated in the order in which the code performs the additions.
* A failed `Assert(...)` is the result `Except.error Fault.assertion`.
* The sub-postlists (`DBPostList *pl`) and the sub-databases (`IRDatabase *`) are abstract
  interfaces implemented elsewhere; they are embedded as records of functions over an
  abstract state (`PostListOps`, `IRDatabaseOps`).
* Loops whose termination depends on the sub-postlists carry an iteration budget; running
  out of it is `Except.error Fault.fuel`.
* `honey_cursor.h` only declares `do_find`, `next`, `prev` and `read_tag`; the key search
  is modelled from the specification over a table of decoded entries (`HoneyTable`), and
  every such definition says so in its documentation.
-/

namespace Xapian

/-! ## Faults -/

/-- Ways in which an embedded operation can fail to produce a result. -/
inductive Fault where
  /-- An `Assert(...)` did not hold. -/
  | assertion
  /-- The iteration budget of a loop model was used up before the loop ended. -/
  | fuel
  /-- Division by zero or an access outside a vector. -/
  | undefined
  deriving DecidableEq, Repr

/-! ## Docid arithmetic -/

/-- The expression `(did - 1) / multiplier + 1` of `open_term_list` / `open_document`. -/
def realdid (multiplier did : Nat) : Nat := (did - 1) / multiplier + 1

/-- The expression `(did - 1) % multiplier` of `open_term_list` / `open_document`. -/
def dbnumber (multiplier did : Nat) : Nat := (did - 1) % multiplier

/-- The router mapping in the words of the specification,
`global_id = (local_id - 1) * multiplier + offset`, as a number: no machine integer is
involved and nothing wraps around. -/
def exactdoc (docid multiplier offset : Nat) : Nat := (docid - 1) * multiplier + offset

/-- The expression `(pl->get_docid() - 1) * multiplier + offset` of `MultiPostList::next`,
computed in the unsigned type `docid`, which has `modulus` values: the product and the sum
wrap around. -/
def globaldoc (modulus docid multiplier offset : Nat) : Nat :=
  ((docid - 1) * multiplier + offset) % modulus

/-- The number of values of a 32-bit unsigned `docid`, the width of the concrete runs. -/
def docid32 : Nat := 4294967296

/-- The number of values of a 64-bit unsigned `docid`. -/
def docid64 : Nat := 18446744073709551616

/-! ## Sub-postlists -/

/-- The part of the `DBPostList` interface that `MultiPostList` calls, over an abstract
sub-postlist state `σ`. -/
structure PostListOps (σ W : Type) where
  /-- The number of values of the unsigned integer type `docid`, in which `get_docid()`
  answers and `MultiPostList` computes. -/
  docid_modulus : Nat
  /-- The call `pl->next(w_min)`: the state of the sub-postlist afterwards. -/
  next : W → σ → σ
  /-- The call `pl->at_end()`. -/
  at_end : σ → Bool
  /-- The call `pl->get_docid()`. -/
  get_docid : σ → Nat
  /-- The call `pl->get_weight()`. -/
  get_weight : σ → W

/-- Class `MultiPostListInternal`: one sub-postlist with its bookkeeping. -/
structure MultiPostListInternal (σ : Type) where
  pl : σ
  currdoc : Nat
  offset : Nat
  multiplier : Nat

/-- Modelled from the spec: the constructor call
`MultiPostListInternal pl(sub, offset, multiplier)` of `open_post_list`.  The class is
declared in `multi_database.h`, which is not among the sources.  A new cursor has no
position yet: its `currdoc` is `0`, the value a new `MultiPostList` starts from, so that
the first `next` advances every cursor. -/
def MultiPostListInternal.create {σ : Type} (pl : σ) (offset multiplier : Nat) :
    MultiPostListInternal σ :=
  { pl := pl, currdoc := 0, offset := offset, multiplier := multiplier }

/-- Class `MultiPostList`: the fields that `multi_database.cc` reads and writes. -/
structure MultiPostList (σ : Type) where
  postlists : List (MultiPostListInternal σ)
  finished : Bool
  currdoc : Nat
  freq_initialised : Bool

namespace MultiPostList

variable {σ W : Type}

/-- The constructor `MultiPostList::MultiPostList(pls)`. -/
def create (pls : List (MultiPostListInternal σ)) : MultiPostList σ :=
  { postlists := pls, finished := false, currdoc := 0, freq_initialised := false }

/-- Modelled from the spec: `MultiPostList::at_end()` is declared in `multi_database.h`,
which is not among the sources; the spec's `exhausted` flag is the field `finished`. -/
def at_end (m : MultiPostList σ) : Bool := m.finished

/-- The loop of `MultiPostList::get_weight`, with the accumulator `wt`. -/
def get_weight_loop [Add W] (ops : PostListOps σ W) (currdoc : Nat) :
    W → List (MultiPostListInternal σ) → W
  | wt, [] => wt
  | wt, i :: rest =>
    if i.currdoc = currdoc then get_weight_loop ops currdoc (wt + ops.get_weight i.pl) rest
    else get_weight_loop ops currdoc wt rest

/-- The method `MultiPostList::get_weight() const`. -/
def get_weight [Zero W] [Add W] (ops : PostListOps σ W) (m : MultiPostList σ) :
    Except Fault W :=
  if m.freq_initialised then .ok (get_weight_loop ops m.currdoc 0 m.postlists)
  else .error Fault.assertion

/-- The first loop of `MultiPostList::next`: every sub-postlist with
`currdoc >= (*i).currdoc` is advanced; it is erased when it is then at its end and
otherwise gets its global position recomputed.  `currdoc` is the member of the merge,
which the loop does not change. -/
def advance (ops : PostListOps σ W) (w_min : W) (currdoc : Nat) :
    List (MultiPostListInternal σ) → List (MultiPostListInternal σ)
  | [] => []
  | i :: rest =>
    if i.currdoc ≤ currdoc then
      if ops.at_end (ops.next w_min i.pl) then advance ops w_min currdoc rest
      else
        { i with
          pl := ops.next w_min i.pl
          currdoc :=
            (globaldoc ops.docid_modulus (ops.get_docid (ops.next w_min i.pl)) i.multiplier
              i.offset) }
          :: advance ops w_min currdoc rest
    else i :: advance ops w_min currdoc rest

/-- The second loop of `MultiPostList::next`: starting from the first element's `currdoc`,
take every smaller `currdoc` met. -/
def newdoc_loop : Nat → List (MultiPostListInternal σ) → Nat
  | newdoc, [] => newdoc
  | newdoc, i :: rest =>
    if i.currdoc < newdoc then newdoc_loop i.currdoc rest else newdoc_loop newdoc rest

/-- The body of `MultiPostList::next` after its assertion. -/
def next_body (ops : PostListOps σ W) (w_min : W) (m : MultiPostList σ) : MultiPostList σ :=
  match advance ops w_min m.currdoc m.postlists with
  | [] => { m with postlists := [], finished := true }
  | i :: rest => { m with postlists := i :: rest, currdoc := newdoc_loop i.currdoc rest }

/-- The method `MultiPostList::next(w_min)`.  The returned pointer is always `NULL`; the
result here is the state of the merge afterwards. -/
def next (ops : PostListOps σ W) (w_min : W) (m : MultiPostList σ) :
    Except Fault (MultiPostList σ) :=
  if m.at_end then .error Fault.assertion else .ok (next_body ops w_min m)

/-- The `while` loop of `MultiPostList::skip_to` with an iteration budget.  (`next` returns
`NULL`, so the early `return ret` is never taken.) -/
def skip_to_loop (ops : PostListOps σ W) (did : Nat) (w_min : W) :
    Nat → MultiPostList σ → Except Fault (MultiPostList σ)
  | fuel, m =>
    if !m.at_end && decide (m.currdoc < did) then
      match fuel with
      | 0 => .error Fault.fuel
      | fuel + 1 =>
        match next ops w_min m with
        | .ok m' => skip_to_loop ops did w_min fuel m'
        | .error e => .error e
    else .ok m

/-- The method `MultiPostList::skip_to(did, w_min)`. -/
def skip_to (ops : PostListOps σ W) (fuel : Nat) (did : Nat) (w_min : W)
    (m : MultiPostList σ) : Except Fault (MultiPostList σ) :=
  if m.at_end then .error Fault.assertion else skip_to_loop ops did w_min fuel m

/-- The method `next` called `n` times in a row, stopping at the first failure. -/
def nexts (ops : PostListOps σ W) (w_min : W) :
    Nat → MultiPostList σ → Except Fault (MultiPostList σ)
  | 0, m => .ok m
  | n + 1, m =>
    match next ops w_min m with
    | .ok m' => nexts ops w_min n m'
    | .error e => .error e

/-- What a caller observes who keeps calling `next` (at most `n` times) and reads
`currdoc` after every call that leaves the merge positioned, stopping at the call that
exhausts it. -/
def positions (ops : PostListOps σ W) (w_min : W) : Nat → MultiPostList σ → List Nat
  | 0, _ => []
  | n + 1, m =>
    match next ops w_min m with
    | .ok m' => if m'.at_end then [] else m'.currdoc :: positions ops w_min n m'
    | .error _ => []

end MultiPostList

/-! ### A sub-postlist over a finite list of postings -/

/-- Modelled from the spec: the posting iterator of one sub-collection, which is an external
collaborator (a `DBPostList` of some other backend).  It is a finite sequence of
(local document id, weight) postings read one at a time: before the first `next` no
posting is current; afterwards the head of `postings` is the current posting, and the
iterator is at its end once none is left.  `next` ignores `w_min` (no pruning).  `B` is
the number of values of the `docid` type of the backend. -/
structure ListPostList (B : Nat) (W : Type) where
  started : Bool
  postings : List (Nat × W)

namespace ListPostList

variable {B : Nat} {W : Type}

/-- A sub-postlist on which `next` has not been called yet. -/
def fresh_of (l : List (Nat × W)) : ListPostList B W := { started := false, postings := l }

/-- The call `next(w_min)` on a list-backed sub-postlist. -/
def next (_w_min : W) (s : ListPostList B W) : ListPostList B W :=
  if s.started then { s with postings := s.postings.tail } else { s with started := true }

/-- The call `at_end()` on a list-backed sub-postlist. -/
def at_end (s : ListPostList B W) : Bool := s.started && s.postings.isEmpty

/-- The call `get_docid()` on a list-backed sub-postlist (`0` when no posting is
current). -/
def get_docid (s : ListPostList B W) : Nat :=
  match s.postings with
  | [] => 0
  | p :: _ => if s.started then p.1 else 0

/-- The call `get_weight()` on a list-backed sub-postlist. -/
def get_weight [Zero W] (s : ListPostList B W) : W :=
  match s.postings with
  | [] => 0
  | p :: _ => if s.started then p.2 else 0

/-- The list-backed sub-postlist as an instance of the interface. -/
def ops [Zero W] : PostListOps (ListPostList B W) W :=
  { docid_modulus := B, next := next, at_end := at_end, get_docid := get_docid,
    get_weight := get_weight }

/-- The local ids of a posting list are strictly increasing and at least `1`. -/
def WellFormed (l : List (Nat × W)) : Prop :=
  (l.map Prod.fst).Pairwise (· < ·) ∧ ∀ p ∈ l, 1 ≤ p.1

end ListPostList

/-! ### Well-behaved sub-postlists and reachable merge states -/

/-- The sub-postlists yield strictly increasing local ids `≥ 1`, whatever `w_min` they are
given: from a state on which `next` was never called (`fresh`) or which is on a posting
(`positioned`), a `next` that does not reach the end leads to a state on a posting, with
a larger local id than before. -/
structure PostListOps.Increasing {σ W : Type} (ops : PostListOps σ W)
    (fresh positioned : σ → Prop) : Prop where
  first : ∀ w s, fresh s → ops.at_end (ops.next w s) = false → positioned (ops.next w s)
  step : ∀ w s, positioned s → ops.at_end (ops.next w s) = false →
    positioned (ops.next w s) ∧ ops.get_docid s < ops.get_docid (ops.next w s)
  docid_pos : ∀ s, positioned s → 1 ≤ ops.get_docid s

/-- The merge states reachable from construction over fresh sub-postlists by calls of
`next` and `skip_to` that return. -/
inductive MultiPostList.Reachable {σ W : Type} (ops : PostListOps σ W) (fresh : σ → Prop) :
    MultiPostList σ → Prop where
  | create (pls : List (MultiPostListInternal σ))
      (h : ∀ c ∈ pls, ∃ pl offset multiplier,
        fresh pl ∧ c = MultiPostListInternal.create pl offset multiplier) :
      Reachable ops fresh (MultiPostList.create pls)
  | next (w_min : W) (m m' : MultiPostList σ) :
      Reachable ops fresh m → MultiPostList.next ops w_min m = .ok m' →
      Reachable ops fresh m'
  | skip_to (fuel did : Nat) (w_min : W) (m m' : MultiPostList σ) :
      Reachable ops fresh m → MultiPostList.skip_to ops fuel did w_min m = .ok m' →
      Reachable ops fresh m'

/-- The cursors `open_post_list` would build over list-backed sub-postlists of a backend
whose `docid` type has `B` values: one fresh cursor per given (posting list, offset), all
with multiplier `M`. -/
def listCursors (B : Nat) {W : Type} (M : Nat) (subs : List (List (Nat × W) × Nat)) :
    List (MultiPostListInternal (ListPostList B W)) :=
  subs.map fun s => MultiPostListInternal.create (ListPostList.fresh_of s.1) s.2 M

/-- All remapped ids `(local_id - 1) * M + offset` of the given sub-lists. -/
def remappedIds {W : Type} (M : Nat) (subs : List (List (Nat × W) × Nat)) : List Nat :=
  subs.flatMap fun s => s.1.map fun p => exactdoc p.1 M s.2

/-- The total number of postings of the given sub-lists. -/
def totalPostings {W : Type} (subs : List (List (Nat × W) × Nat)) : Nat :=
  (subs.map fun s => s.1.length).sum

/-! ## The multi-database -/

/-- Class `DatabaseBuilderParams` as far as `MultiDatabase::open` reads it: the paths, the
parameters of the sub-databases, the read-only flag and the root (`none` is `NULL`). -/
inductive DatabaseBuilderParams (ρ : Type) where
  | mk (paths : List String) (subdbs : List (DatabaseBuilderParams ρ)) (readonly : Bool)
      (root : Option ρ) : DatabaseBuilderParams ρ

namespace DatabaseBuilderParams

variable {ρ : Type}

/-- Member `paths`. -/
def paths : DatabaseBuilderParams ρ → List String
  | mk p _ _ _ => p

/-- Member `subdbs`. -/
def subdbs : DatabaseBuilderParams ρ → List (DatabaseBuilderParams ρ)
  | mk _ s _ _ => s

/-- Member `readonly`. -/
def readonly : DatabaseBuilderParams ρ → Bool
  | mk _ _ r _ => r

/-- Member `root`. -/
def root : DatabaseBuilderParams ρ → Option ρ
  | mk _ _ _ r => r

/-- The body of the `for` loop of `MultiDatabase::open` up to the call of the builder:
`sub_params` is a copy of `*p` in which `readonly` and `root` are overridden when the
outer parameters set them. -/
def sub_params (params p : DatabaseBuilderParams ρ) : DatabaseBuilderParams ρ :=
  mk p.paths p.subdbs (if params.readonly then params.readonly else p.readonly)
    (if params.root.isSome then params.root else p.root)

end DatabaseBuilderParams

/-- The part of the `IRDatabase` interface that `MultiDatabase` calls on its
sub-databases, over an abstract sub-database state `δ`; `σ` is the state of a sub-postlist,
`R` the type of the `rset` argument, `D` and `T` what `open_document` and `open_term_list`
return, `ρ` the type of a root database. -/
structure IRDatabaseOps (δ σ R D T ρ : Type) where
  term_exists : δ → String → Bool
  open_post_list : δ → String → R → σ
  open_term_list : δ → Nat → T
  open_document : δ → Nat → D
  set_root : δ → ρ → δ
  /-- The call `DatabaseBuilder::create(sub_params)`. -/
  create : DatabaseBuilderParams ρ → δ

/-- Class `MultiDatabase`: the members that `multi_database.cc` reads and writes.  `terms`
is the `set<termname>` cache of `term_exists`. -/
structure MultiDatabase (δ ρ : Type) where
  databases : List δ
  terms : List String
  root : Option ρ
  length_initialised : Bool
  opened : Bool
  used : Bool

/-- The object `new MultiTermList(newtl, database, this)` that `open_term_list` returns:
the term list of the sub-database together with that sub-database. -/
structure MultiTermList (δ T : Type) where
  tl : T
  termdb : δ

namespace MultiDatabase

variable {δ σ R D T ρ : Type}

/-- The constructor `MultiDatabase::MultiDatabase()`.  The members it does not mention are
empty containers; `root` has no value yet. -/
def create : MultiDatabase δ ρ :=
  { databases := [], terms := [], root := none, length_initialised := false,
    opened := false, used := false }

/-- The method `MultiDatabase::set_root(db)`. -/
def set_root (dops : IRDatabaseOps δ σ R D T ρ) (self : MultiDatabase δ ρ) (db : ρ) :
    Except Fault (MultiDatabase δ ρ) :=
  if self.used then .error Fault.assertion
  else .ok { self with root := some db, databases := self.databases.map (dops.set_root · db) }

/-- The method `MultiDatabase::open(params)`. -/
def open_ (dops : IRDatabaseOps δ σ R D T ρ) (self : MultiDatabase δ ρ)
    (params : DatabaseBuilderParams ρ) : Except Fault (MultiDatabase δ ρ) :=
  if self.used then .error Fault.assertion
  else if params.paths.length ≠ 0 then .error Fault.assertion
  else if ¬ (params.subdbs.length > 0) then .error Fault.assertion
  else
    .ok { self with
          databases :=
            self.databases ++ params.subdbs.map fun p => dops.create (params.sub_params p)
          opened := true }

/-- The loop of `MultiDatabase::term_exists` over the sub-databases, which stops at the
first one that has the term; the result is the final value of `found`. -/
def term_exists_loop (dops : IRDatabaseOps δ σ R D T ρ) (tname : String) : List δ → Bool
  | [] => false
  | i :: rest => if dops.term_exists i tname then true else term_exists_loop dops tname rest

/-- The method `MultiDatabase::term_exists(tname) const`, which writes the mutable members
`used` and `terms`: the result and the database afterwards. -/
def term_exists (dops : IRDatabaseOps δ σ R D T ρ) (self : MultiDatabase δ ρ)
    (tname : String) : Except Fault (Bool × MultiDatabase δ ρ) :=
  if !self.opened then .error Fault.assertion
  else
    let self1 := { self with used := true }
    if tname ∈ self1.terms then .ok (true, self1)
    else if term_exists_loop dops tname self1.databases then
      .ok (true, { self1 with terms := tname :: self1.terms })
    else .ok (false, self1)

/-- The loop of `MultiDatabase::open_post_list`: `offset` counts every sub-database,
`pls` receives a cursor for those that have the term. -/
def open_post_list_loop (dops : IRDatabaseOps δ σ R D T ρ) (tname : String) (rset : R)
    (multiplier : Nat) : Nat → List δ → List (MultiPostListInternal σ)
  | _, [] => []
  | offset, i :: rest =>
    if dops.term_exists i tname then
      MultiPostListInternal.create (dops.open_post_list i tname rset) offset multiplier
        :: open_post_list_loop dops tname rset multiplier (offset + 1) rest
    else open_post_list_loop dops tname rset multiplier (offset + 1) rest

/-- The method `MultiDatabase::open_post_list(tname, rset) const`: the new `MultiPostList`
and the database afterwards. -/
def open_post_list (dops : IRDatabaseOps δ σ R D T ρ) (self : MultiDatabase δ ρ)
    (tname : String) (rset : R) : Except Fault (MultiPostList σ × MultiDatabase δ ρ) :=
  if !self.opened then .error Fault.assertion
  else
    match term_exists dops { self with used := true } tname with
    | .error e => .error e
    | .ok (found, self2) =>
      if !found then .error Fault.assertion
      else
        match open_post_list_loop dops tname rset self2.databases.length 1 self2.databases with
        | [] => .error Fault.assertion
        | pl :: pls => .ok (MultiPostList.create (pl :: pls), self2)

/-- The method `MultiDatabase::open_term_list(did) const`.  A zero `multiplier` and a
`dbnumber` outside `databases` have no defined behaviour and are reported as
`Fault.undefined`. -/
def open_term_list (dops : IRDatabaseOps δ σ R D T ρ) (self : MultiDatabase δ ρ)
    (did : Nat) : Except Fault (MultiTermList δ T × MultiDatabase δ ρ) :=
  if !self.opened then .error Fault.assertion
  else
    let multiplier := self.databases.length
    if multiplier = 0 then .error Fault.undefined
    else
      match self.databases[dbnumber multiplier did]? with
      | none => .error Fault.undefined
      | some db =>
        .ok ({ tl := dops.open_term_list db (realdid multiplier did), termdb := db },
             { self with used := true })

/-- The method `MultiDatabase::open_document(did) const`, with the same treatment of
undefined behaviour as `open_term_list`. -/
def open_document (dops : IRDatabaseOps δ σ R D T ρ) (self : MultiDatabase δ ρ)
    (did : Nat) : Except Fault (D × MultiDatabase δ ρ) :=
  if !self.opened then .error Fault.assertion
  else
    let multiplier := self.databases.length
    if multiplier = 0 then .error Fault.undefined
    else
      match self.databases[dbnumber multiplier did]? with
      | none => .error Fault.undefined
      | some db => .ok (dops.open_document db (realdid multiplier did), { self with used := true })

/-- The states of a `MultiDatabase` reachable from its constructor by calls of its
methods that return. -/
inductive Reachable (dops : IRDatabaseOps δ σ R D T ρ) : MultiDatabase δ ρ → Prop where
  | create : Reachable dops MultiDatabase.create
  | set_root (s s' : MultiDatabase δ ρ) (db : ρ) :
      Reachable dops s → set_root dops s db = .ok s' → Reachable dops s'
  | open_ (s s' : MultiDatabase δ ρ) (params : DatabaseBuilderParams ρ) :
      Reachable dops s → open_ dops s params = .ok s' → Reachable dops s'
  | term_exists (s s' : MultiDatabase δ ρ) (tname : String) (b : Bool) :
      Reachable dops s → term_exists dops s tname = .ok (b, s') → Reachable dops s'
  | open_post_list (s s' : MultiDatabase δ ρ) (tname : String) (rset : R)
      (pl : MultiPostList σ) :
      Reachable dops s → open_post_list dops s tname rset = .ok (pl, s') → Reachable dops s'
  | open_term_list (s s' : MultiDatabase δ ρ) (did : Nat) (tl : MultiTermList δ T) :
      Reachable dops s → open_term_list dops s did = .ok (tl, s') → Reachable dops s'
  | open_document (s s' : MultiDatabase δ ρ) (did : Nat) (doc : D) :
      Reachable dops s → open_document dops s did = .ok (doc, s') → Reachable dops s'

end MultiDatabase

/-! ## The Honey cursor -/

/-- Modelled from the spec: class `BufferedFile` of `honey_table.h`, which is not among the
sources: a seekable handle over the bytes of the table's file region, with its own
position. -/
structure BufferedFile where
  bytes : List Nat
  pos : Int

/-- The call `store.set_pos(pos)`. -/
def BufferedFile.set_pos (f : BufferedFile) (pos : Int) : BufferedFile := { f with pos := pos }

/-- The call `store.get_pos()`. -/
def BufferedFile.get_pos (f : BufferedFile) : Int := f.pos

/-- Modelled from the spec: class `CompressionStream`, which is not among the sources: a
stateful decompression stream made for a fixed strategy parameter. -/
structure CompressionStream where
  strategy : Int
  used : Bool

/-- The zlib constant `Z_DEFAULT_STRATEGY`. -/
def Z_DEFAULT_STRATEGY : Int := 0

/-- The constructor call `comp_stream(Z_DEFAULT_STRATEGY)`: a stream not used yet. -/
def CompressionStream.create (strategy : Int) : CompressionStream :=
  { strategy := strategy, used := false }

/-- Class `HoneyCursor`: its data members, in the order of declaration. -/
structure HoneyCursor where
  store : BufferedFile
  current_key : String
  current_tag : String
  val_size : Nat
  current_compressed : Bool
  comp_stream : CompressionStream
  is_at_end : Bool
  last_key : String
  root : Int
  index : Int
  offset : Int

namespace HoneyCursor

/-- The constructor `HoneyCursor(store_, root_, offset_)`; the members it does not mention
take their default member initialisers. -/
def create (store_ : BufferedFile) (root_ offset_ : Int) : HoneyCursor :=
  { store := store_.set_pos offset_
    current_key := ""
    current_tag := ""
    val_size := 0
    current_compressed := false
    comp_stream := CompressionStream.create Z_DEFAULT_STRATEGY
    is_at_end := false
    last_key := ""
    root := root_
    index := root_
    offset := offset_ }

/-- The method `rewind()`. -/
def rewind (c : HoneyCursor) : HoneyCursor :=
  { c with
    store := c.store.set_pos c.offset
    current_key := ""
    last_key := ""
    is_at_end := false
    index := c.root
    val_size := 0 }

/-- The method `to_end()`. -/
def to_end (c : HoneyCursor) : HoneyCursor := { c with is_at_end := true }

/-- The method `after_end() const`. -/
def after_end (c : HoneyCursor) : Bool := c.is_at_end

end HoneyCursor

/-! ### The invariant of the merge -/

/-- What holds of every cursor of a reachable merge at position `cur`: it is not behind
the merge, and either its sub-postlist is fresh and its `currdoc` still `0`, or its
sub-postlist is on a posting and its `currdoc` is what the code computes from the local
id of that posting. -/
def CursorOk {σ W : Type} (ops : PostListOps σ W) (fresh positioned : σ → Prop) (cur : Nat)
    (c : MultiPostListInternal σ) : Prop :=
  cur ≤ c.currdoc ∧
    ((fresh c.pl ∧ c.currdoc = 0) ∨
     (positioned c.pl ∧
       c.currdoc = globaldoc ops.docid_modulus (ops.get_docid c.pl) c.multiplier c.offset))

/-- Every cursor of the merge satisfies `CursorOk` at the merge's position. -/
def MultiPostList.Inv {σ W : Type} (ops : PostListOps σ W) (fresh positioned : σ → Prop)
    (m : MultiPostList σ) : Prop :=
  ∀ c ∈ m.postlists, CursorOk ops fresh positioned m.currdoc c

/-- A list-backed sub-postlist before its first `next`, over a well-formed posting list. -/
def ListPostList.Fresh {B : Nat} {W : Type} (s : ListPostList B W) : Prop :=
  s.started = false ∧ ListPostList.WellFormed s.postings

/-- A list-backed sub-postlist on a posting, the rest of its posting list well-formed. -/
def ListPostList.Positioned {B : Nat} {W : Type} (s : ListPostList B W) : Prop :=
  s.started = true ∧ s.postings ≠ [] ∧ ListPostList.WellFormed s.postings

/-- The local ids that the sub-postlists yield remap within the range of `docid` under
the multiplier and offset of every cursor of the list: for none of them does the
expression `(pl->get_docid() - 1) * multiplier + offset` wrap around. -/
def FitsDocid {σ W : Type} (ops : PostListOps σ W) (positioned : σ → Prop)
    (l : List (MultiPostListInternal σ)) : Prop :=
  ∀ c ∈ l, ∀ s, positioned s →
    (ops.get_docid s - 1) * c.multiplier + c.offset < ops.docid_modulus

/-- The example of the specification: three sub-collections with local postings `{1,3,5}`,
`{2,3}` and `{1,4}` in slots `1`, `2` and `3` (the weights are arbitrary). -/
def exampleSubs : List (List (Nat × Nat) × Nat) :=
  [([(1, 10), (3, 20), (5, 30)], 1), ([(2, 40), (3, 50)], 2), ([(1, 60), (4, 70)], 3)]

/-- The condition on which the loop of `skip_to` stops: the merge is exhausted or its
position has reached `did` (the negation of `!at_end() && currdoc < did`). -/
def MultiPostList.reached {σ : Type} (did : Nat) (m : MultiPostList σ) : Bool :=
  m.at_end || decide (did ≤ m.currdoc)

/-- One sub-collection in slot `1` of `3` whose second local id remaps beyond a 32-bit
`docid`: `(1431655766 - 1) * 3 + 1 = 4294967296`. -/
def wrapSubs : List (List (Nat × Nat) × Nat) :=
  [([(1, 10), (1431655766, 20)], 1)]

/-- The merge over the example of the specification, as constructed (multiplier `3`). -/
def exampleMerge : MultiPostList (ListPostList docid32 Nat) :=
  MultiPostList.create (listCursors docid32 3 exampleSubs)

/-! ### A small instance of the sub-database interface -/

/-- A sub-database given by the terms it contains, each with its posting list; it is used
to exhibit concrete runs of `MultiDatabase`.  Documents and term lists are represented by
the local id they were opened with, the builder makes a sub-database holding one posting
of local id `1` for every path it is given, and `set_root` has no effect. -/
def exampleDops :
    IRDatabaseOps (List (String × List (Nat × Nat))) (ListPostList docid32 Nat) Unit Nat Nat Unit :=
  { term_exists := fun db tname => db.any fun e => e.1 == tname
    open_post_list := fun db tname _ =>
      ListPostList.fresh_of ((db.find? fun e => e.1 == tname).map Prod.snd |>.getD [])
    open_term_list := fun _ did => did
    open_document := fun _ did => did
    set_root := fun db _ => db
    create := fun params => params.paths.map fun path => (path, [(1, 1)]) }

/-- An opened multi-database over three sub-databases of which the first and the last
contain the term `"a"` and the second only the term `"b"`. -/
def exampleDatabase : MultiDatabase (List (String × List (Nat × Nat))) Unit :=
  { databases := [[("a", [(1, 10), (3, 20)])], [("b", [(2, 5)])], [("a", [(2, 30)]), ("b", [(1, 7)])]]
    terms := []
    root := none
    length_initialised := false
    opened := true
    used := false }

/-- The parameters of a multi-database over three sub-databases, given by their paths. -/
def exampleParams : DatabaseBuilderParams Unit :=
  .mk [] [.mk ["a"] [] false none, .mk ["b"] [] false none, .mk ["a", "b"] [] false none]
    true none

/-! ### The merge over list-backed sub-postlists -/

/-- The remapped ids of the postings that a cursor over a list-backed sub-postlist still
holds (its current posting included, once it is on one). -/
def cursorPending {B : Nat} {W : Type} (c : MultiPostListInternal (ListPostList B W)) : List Nat :=
  c.pl.postings.map fun p => exactdoc p.1 c.multiplier c.offset

/-- The remapped ids still held by a list of cursors. -/
def pendingIds {B : Nat} {W : Type} (l : List (MultiPostListInternal (ListPostList B W))) : List Nat :=
  l.flatMap cursorPending

/-- A cursor that is on a posting of its list-backed sub-postlist, with `currdoc` the
remapped id of that posting and a non-zero multiplier, all of whose remaining postings
remap to ids within the range of `docid`. -/
def CursorOn {B : Nat} {W : Type} [Zero W] (c : MultiPostListInternal (ListPostList B W)) : Prop :=
  ListPostList.Positioned c.pl ∧ 1 ≤ c.multiplier ∧
    c.currdoc = exactdoc ((ListPostList.ops : PostListOps (ListPostList B W) W).get_docid c.pl) c.multiplier
      c.offset ∧
    ∀ p ∈ c.pl.postings, exactdoc p.1 c.multiplier c.offset < B

/-- A merge over list-backed sub-postlists that is on a position: it is not exhausted, all
its cursors are on postings and none is behind the merge, some cursor is at the merge's
position, and no remapped id is held twice. -/
def Merging {B : Nat} {W : Type} [Zero W] (m : MultiPostList (ListPostList B W)) : Prop :=
  (∀ c ∈ m.postlists, CursorOn c ∧ m.currdoc ≤ c.currdoc) ∧
  (∃ c ∈ m.postlists, c.currdoc = m.currdoc) ∧
  (pendingIds m.postlists).Nodup ∧
  m.finished = false

/-! ### Copies of a Honey cursor and its logical states -/

namespace HoneyCursor

/-- The copy constructor `HoneyCursor(const HoneyCursor& o)`: every member is copied by
value, except that `comp_stream` is made anew; the body then sets the position of the
copied store to the position of the store of `o`. -/
def copy (o : HoneyCursor) : HoneyCursor :=
  { store := o.store.set_pos o.store.get_pos
    current_key := o.current_key
    current_tag := o.current_tag
    val_size := o.val_size
    current_compressed := o.current_compressed
    comp_stream := CompressionStream.create Z_DEFAULT_STRATEGY
    is_at_end := o.is_at_end
    last_key := o.last_key
    root := o.root
    index := o.index
    offset := o.offset }

/-- The method `clone() const`: the object `new HoneyCursor(*this)`. -/
def clone (c : HoneyCursor) : HoneyCursor := copy c

/-- The method `del()`: the result `false` and the cursor, which it does not touch. -/
def del (c : HoneyCursor) : Bool × HoneyCursor := (false, c)

/-- The cursor states reachable from the constructor through `rewind()`, `to_end()`,
`clone()` and `del()`. -/
inductive Reachable : HoneyCursor → Prop where
  | create (store_ : BufferedFile) (root_ offset_ : Int) :
      Reachable (HoneyCursor.create store_ root_ offset_)
  | rewind (c : HoneyCursor) : Reachable c → Reachable c.rewind
  | to_end (c : HoneyCursor) : Reachable c → Reachable c.to_end
  | clone (c : HoneyCursor) : Reachable c → Reachable c.clone
  | del (c : HoneyCursor) : Reachable c → Reachable c.del.2

/-- The logical state *before-first* in the words of the specification:
`current_key == ""`. -/
def before_first_spec (c : HoneyCursor) : Prop := c.current_key = ""

/-- The logical state *on-entry* in the words of the specification: `current_key` holds a
real (non-empty) key and `is_at_end == false`. -/
def on_entry (c : HoneyCursor) : Prop := c.current_key ≠ "" ∧ c.is_at_end = false

/-- The logical state *after-last* in the words of the specification:
`is_at_end == true`. -/
def after_last (c : HoneyCursor) : Prop := c.is_at_end = true

/-- The logical state *before-first* of a cursor that is not after the last entry: the
key is empty and `is_at_end == false`. -/
def before_first (c : HoneyCursor) : Prop := c.current_key = "" ∧ c.is_at_end = false

end HoneyCursor

/-- Exactly one of three propositions holds. -/
def ExactlyOne (p q r : Prop) : Prop :=
  (p ∧ ¬ q ∧ ¬ r) ∨ (¬ p ∧ q ∧ ¬ r) ∨ (¬ p ∧ ¬ q ∧ r)

/-- The `HoneyCursor` objects of a running program, each at its address (its index in the
list); a `HoneyCursor*` is an address.  Every data member of `HoneyCursor` is held by
value, so an object is the record of its members. -/
structure CursorHeap where
  objects : List HoneyCursor

namespace CursorHeap

/-- The object `*p`, if `p` is the address of one. -/
def deref (h : CursorHeap) (p : Nat) : Option HoneyCursor := h.objects[p]?

/-- The call `p->clone()`: `new HoneyCursor(*this)` allocates an object at the next free
address and constructs it with the copy constructor from the object at `p`; the result is
the address of the new object.  No object that exists is written to (`clone` is `const`
and the copy constructor takes `const HoneyCursor&`). -/
def clone (h : CursorHeap) (p : Nat) : Option (Nat × CursorHeap) :=
  match h.deref p with
  | none => none
  | some c => some (h.objects.length, { objects := h.objects ++ [HoneyCursor.copy c] })

/-- The call `p->rewind()`: the body of `rewind()` assigns to members of `*this` only. -/
def rewind (h : CursorHeap) (p : Nat) : Option CursorHeap :=
  match h.deref p with
  | none => none
  | some c => some { objects := h.objects.set p c.rewind }

/-- The call `p->to_end()`: the body of `to_end()` assigns to `this->is_at_end` only. -/
def to_end (h : CursorHeap) (p : Nat) : Option CursorHeap :=
  match h.deref p with
  | none => none
  | some c => some { objects := h.objects.set p c.to_end }

end CursorHeap

/-- A cursor that has read an entry with key `"k"` and tag `"tag"`. -/
def exampleCursor : HoneyCursor :=
  { HoneyCursor.create { bytes := [], pos := 0 } 16 0 with
    store := { bytes := [], pos := 9 }
    current_key := "k"
    current_tag := "tag"
    last_key := "k" }

/-- Steps 1 to 3 of `next` as the specification words them: every cursor whose `currdoc`
equals the old position `cur` of the merge has its sub-postlist advanced by one; it is
removed when the sub-postlist is then exhausted and otherwise gets its `currdoc`
recomputed from the new local id; every other cursor is left as it is. -/
def MultiPostList.advance_tied {σ W : Type} (ops : PostListOps σ W) (w_min : W) (cur : Nat) :
    List (MultiPostListInternal σ) → List (MultiPostListInternal σ)
  | [] => []
  | i :: rest =>
    if i.currdoc = cur then
      if ops.at_end (ops.next w_min i.pl) then advance_tied ops w_min cur rest
      else
        { i with
          pl := ops.next w_min i.pl
          currdoc :=
            (globaldoc ops.docid_modulus (ops.get_docid (ops.next w_min i.pl)) i.multiplier
              i.offset) }
          :: advance_tied ops w_min cur rest
    else i :: advance_tied ops w_min cur rest

/-! ### Merges over cursors in distinct slots -/

namespace MultiDatabase

variable {δ σ R D T ρ : Type}

/-- The states of a `MultiDatabase` reachable from its constructor by returning calls of
its methods other than `open`: the states in which no `open()` has completed. -/
inductive NeverOpened (dops : IRDatabaseOps δ σ R D T ρ) : MultiDatabase δ ρ → Prop where
  | create : NeverOpened dops MultiDatabase.create
  | set_root (s s' : MultiDatabase δ ρ) (db : ρ) :
      NeverOpened dops s → set_root dops s db = .ok s' → NeverOpened dops s'
  | term_exists (s s' : MultiDatabase δ ρ) (tname : String) (b : Bool) :
      NeverOpened dops s → term_exists dops s tname = .ok (b, s') → NeverOpened dops s'
  | open_post_list (s s' : MultiDatabase δ ρ) (tname : String) (rset : R)
      (pl : MultiPostList σ) :
      NeverOpened dops s → open_post_list dops s tname rset = .ok (pl, s') →
      NeverOpened dops s'
  | open_term_list (s s' : MultiDatabase δ ρ) (did : Nat) (tl : MultiTermList δ T) :
      NeverOpened dops s → open_term_list dops s did = .ok (tl, s') → NeverOpened dops s'
  | open_document (s s' : MultiDatabase δ ρ) (did : Nat) (doc : D) :
      NeverOpened dops s → open_document dops s did = .ok (doc, s') → NeverOpened dops s'

/-- The states that follow the state `s` by returning calls of the methods. -/
inductive Later (dops : IRDatabaseOps δ σ R D T ρ) (s : MultiDatabase δ ρ) :
    MultiDatabase δ ρ → Prop where
  | refl : Later dops s s
  | set_root (s' s'' : MultiDatabase δ ρ) (db : ρ) :
      Later dops s s' → set_root dops s' db = .ok s'' → Later dops s s''
  | open_ (s' s'' : MultiDatabase δ ρ) (params : DatabaseBuilderParams ρ) :
      Later dops s s' → open_ dops s' params = .ok s'' → Later dops s s''
  | term_exists (s' s'' : MultiDatabase δ ρ) (tname : String) (b : Bool) :
      Later dops s s' → term_exists dops s' tname = .ok (b, s'') → Later dops s s''
  | open_post_list (s' s'' : MultiDatabase δ ρ) (tname : String) (rset : R)
      (pl : MultiPostList σ) :
      Later dops s s' → open_post_list dops s' tname rset = .ok (pl, s'') → Later dops s s''
  | open_term_list (s' s'' : MultiDatabase δ ρ) (did : Nat) (tl : MultiTermList δ T) :
      Later dops s s' → open_term_list dops s' did = .ok (tl, s'') → Later dops s s''
  | open_document (s' s'' : MultiDatabase δ ρ) (did : Nat) (doc : D) :
      Later dops s s' → open_document dops s' did = .ok (doc, s'') → Later dops s s''

/-- Some read operation (`term_exists`, `open_post_list`, `open_term_list`,
`open_document`) called in the state `s` returns and leaves the state `s1`. -/
def ReadReturns (dops : IRDatabaseOps δ σ R D T ρ) (s s1 : MultiDatabase δ ρ) : Prop :=
  (∃ tname b, term_exists dops s tname = .ok (b, s1)) ∨
  (∃ tname rset pl, open_post_list dops s tname rset = .ok (pl, s1)) ∨
  (∃ did tl, open_term_list dops s did = .ok (tl, s1)) ∨
  (∃ did doc, open_document dops s did = .ok (doc, s1))

/-- The invariant of the term cache: it holds only terms that some sub-database has, and
it is empty as long as no read operation has run. -/
def CacheSound (dops : IRDatabaseOps δ σ R D T ρ) (s : MultiDatabase δ ρ) : Prop :=
  (∀ t ∈ s.terms, ∃ d ∈ s.databases, dops.term_exists d t = true) ∧
  (s.used = false → s.terms = [])

end MultiDatabase

/-! ### The table behind a Honey cursor and the key search -/

/-- Modelled from the spec: the table a cursor reads; class `HoneyTable` is declared in
`honey_table.h`, which is not among the sources.  `entries` are the (key, tag) entries in
stored order, as they decode (the front-coding of the keys is not modelled);
`checkpoints` is the secondary index: each checkpoint is the key of an entry together with
the number of that entry, which is where the data stream is repositioned to.  A store
position counts entries from the table's base offset. -/
structure HoneyTable where
  entries : List (String × String)
  checkpoints : List (String × Nat)

namespace HoneyTable

/-- The keys of the table are strictly increasing, and every checkpoint names an entry of
the table by its key and its number. -/
def WellFormed (t : HoneyTable) : Prop :=
  (t.entries.map Prod.fst).Pairwise (· < ·) ∧
  ∀ c ∈ t.checkpoints, ∃ tag, t.entries[c.2]? = some (c.1, tag)

/-- Modelled from the spec: the index search of `do_find`, "the greatest checkpoint key
≤ target key" (the result of the binary search, computed here by one pass).  Keys are
compared as lists of characters, which is the order `<` of strings. -/
def greatest_checkpoint (key : String) : List (String × Nat) → Option (String × Nat)
  | [] => none
  | c :: rest =>
    match greatest_checkpoint key rest with
    | none => if key.toList < c.1.toList then none else some c
    | some b =>
      if key.toList < c.1.toList then some b
      else if b.1.toList < c.1.toList then some c else some b

/-- Modelled from the spec: the forward scan of `do_find`, "linearly scan forward decoding
entries until an entry ≥ target key is found or the table ends": the number of entries
read up to and including the entry found, and that entry. -/
def scan_forward (key : String) : List (String × String) → Nat → Nat × Option (String × String)
  | [], pos => (pos, none)
  | e :: rest, pos =>
    if e.1.toList < key.toList then scan_forward key rest (pos + 1) else (pos + 1, some e)

end HoneyTable

namespace HoneyCursor

/-- Modelled from the spec: the cursor landing on the entry `e` after `pos` entries of the
table have been read: `current_key` (and `last_key`) is the key read, the value bytes
are deferred, the cursor is not at the end. -/
def land (c : HoneyCursor) (pos : Nat) (e : String × String) : HoneyCursor :=
  { c with
    store := c.store.set_pos (c.offset + pos)
    current_key := e.1
    last_key := e.1
    val_size := e.2.length
    is_at_end := false }

/-- Modelled from the spec: `HoneyCursor::do_find(key, greater_than)`, of which the
sources hold the declaration only.  The data stream is repositioned to the greatest
checkpoint with key ≤ `key` (to the first entry when there is none) and scanned forward.
On an exact match the cursor lands on it and the result is true.  Otherwise the result is
false: with `greater_than` the cursor lands on the first key greater than `key`, or is
after-last when the table ends first; without `greater_than` the position is unspecified,
and the model leaves the cursor rewound. -/
def do_find (t : HoneyTable) (c : HoneyCursor) (key : String) (greater_than : Bool) :
    Bool × HoneyCursor :=
  let start :=
    match HoneyTable.greatest_checkpoint key t.checkpoints with
    | some cp => cp.2
    | none => 0
  match HoneyTable.scan_forward key (t.entries.drop start) start with
  | (pos, none) => (false, { c with store := c.store.set_pos (c.offset + pos), is_at_end := true })
  | (pos, some e) =>
    if e.1 = key then (true, c.land pos e)
    else if greater_than then (false, c.land pos e)
    else (false, c.rewind)

/-- The method `find_exact(key)`. -/
def find_exact (t : HoneyTable) (c : HoneyCursor) (key : String) : Bool × HoneyCursor :=
  do_find t c key false

/-- The method `find_entry_ge(key)`. -/
def find_entry_ge (t : HoneyTable) (c : HoneyCursor) (key : String) : Bool × HoneyCursor :=
  do_find t c key true

end HoneyCursor

/-- A table of five entries with checkpoints at entries `0`, `2` and `4`. -/
def exampleTable : HoneyTable :=
  { entries := [("ant", "1"), ("bee", "2"), ("cat", "3"), ("dog", "4"), ("eel", "5")]
    checkpoints := [("ant", 0), ("cat", 2), ("eel", 4)] }

end Xapian

/-! # Theorems -/

namespace Xapian

/-! ## The docid router -/

theorem exactdoc_realdid_dbnumber (M g : Nat) (hg : 1 ≤ g) :
    exactdoc (realdid M g) M (dbnumber M g + 1) = g := by
  unfold exactdoc realdid dbnumber
  have h := Nat.div_add_mod (g - 1) M
  rw [Nat.add_sub_cancel, Nat.mul_comm]
  omega

theorem realdid_exactdoc (M l s : Nat) (hl : 1 ≤ l) (hs : s < M) :
    realdid M (exactdoc l M (s + 1)) = l := by
  unfold exactdoc realdid
  have h1 : (l - 1) * M + (s + 1) - 1 = s + M * (l - 1) := by
    rw [Nat.mul_comm]; omega
  rw [h1, Nat.add_mul_div_left _ _ (by omega : 0 < M), Nat.div_eq_of_lt hs]
  omega

theorem dbnumber_exactdoc (M l s : Nat) (hs : s < M) :
    dbnumber M (exactdoc l M (s + 1)) = s := by
  unfold exactdoc dbnumber
  have h1 : (l - 1) * M + (s + 1) - 1 = s + M * (l - 1) := by
    rw [Nat.mul_comm]; omega
  rw [h1, Nat.add_mul_mod_self_left, Nat.mod_eq_of_lt hs]

theorem globaldoc_of_fits (B d M o : Nat) (h : exactdoc d M o < B) :
    globaldoc B d M o = exactdoc d M o := by
  unfold globaldoc
  exact Nat.mod_eq_of_lt h

/-- C1 as stated fails on a 32-bit `docid`: with multiplier `3`, the local id `1431655766`
and the sub-index `1` give `(1431655766 - 1) * 3 + 2 = 4294967297`, which the code
computes as `1`; that global id splits back to local id `1` in sub-database `0`.  A 64-bit
`docid` does the same at the local id `6148914691236517206`. -/
theorem router_bijection_counterexample :
    ((1 ≤ 3 ∧ 1 ≤ 1431655766 ∧ 1 < 3) ∧
      exactdoc 1431655766 3 (1 + 1) = 4294967297 ∧
      globaldoc docid32 1431655766 3 (1 + 1) = 1 ∧
      realdid 3 (globaldoc docid32 1431655766 3 (1 + 1)) = 1 ∧
      dbnumber 3 (globaldoc docid32 1431655766 3 (1 + 1)) = 0 ∧
      ¬ (realdid 3 (globaldoc docid32 1431655766 3 (1 + 1)) = 1431655766 ∧
          dbnumber 3 (globaldoc docid32 1431655766 3 (1 + 1)) = 1)) ∧
    ((1 ≤ 6148914691236517206 ∧ 6148914691236517206 < docid64) ∧
      globaldoc docid64 6148914691236517206 3 (1 + 1) = 1 ∧
      ¬ (realdid 3 (globaldoc docid64 6148914691236517206 3 (1 + 1)) = 6148914691236517206 ∧
          dbnumber 3 (globaldoc docid64 6148914691236517206 3 (1 + 1)) = 1)) := by
  decide

/-- C1, amended: for a `docid` type of `B` values and every multiplier `M ≥ 1`, splitting
a global id `g ≥ 1` of that type as `open_document` / `open_term_list` do and recombining
it as `MultiPostList::next` does with `offset = sub_index + 1` gives `g` back; and for
every local id `l ≥ 1` and sub-index `s < M` whose global id `(l - 1) * M + (s + 1)` is
within the range of the type, the global id the code computes is that number and splits
back to exactly `(l, s)`. -/
theorem router_bijection_within_range (B M : Nat) (hM : 1 ≤ M) :
    (∀ g, 1 ≤ g → g < B → globaldoc B (realdid M g) M (dbnumber M g + 1) = g) ∧
    (∀ l s, 1 ≤ l → s < M → (l - 1) * M + (s + 1) < B →
      globaldoc B l M (s + 1) = (l - 1) * M + (s + 1) ∧
      1 ≤ globaldoc B l M (s + 1) ∧
      realdid M (globaldoc B l M (s + 1)) = l ∧ dbnumber M (globaldoc B l M (s + 1)) = s) := by
  have _ := hM
  refine ⟨fun g hg hgB => ?_, fun l s hl hs hfit => ?_⟩
  · have h := exactdoc_realdid_dbnumber M g hg
    rw [globaldoc_of_fits _ _ _ _ (by rw [h]; exact hgB), h]
  · have hfit' : exactdoc l M (s + 1) < B := hfit
    rw [globaldoc_of_fits _ _ _ _ hfit']
    refine ⟨rfl, ?_, realdid_exactdoc M l s hl hs, dbnumber_exactdoc M l s hs⟩
    unfold exactdoc; omega

/-- Witness of the amended C1 on a 32-bit `docid` with `M = 3`: the global id `8` splits
to local id `3` in sub-database `1` and back. -/
theorem router_bijection_within_range_witness :
    (1 ≤ 3) ∧ globaldoc docid32 (realdid 3 8) 3 (dbnumber 3 8 + 1) = 8 ∧
      realdid 3 (globaldoc docid32 3 3 (1 + 1)) = 3 ∧
      dbnumber 3 (globaldoc docid32 3 3 (1 + 1)) = 1 :=
  ⟨by decide, (router_bijection_within_range docid32 3 (by decide)).1 8 (by decide) (by decide),
    ((router_bijection_within_range docid32 3 (by decide)).2 3 1 (by decide) (by decide)
      (by decide)).2.2⟩

/-! ## The two loops of `MultiPostList::next` -/

namespace MultiPostList

variable {σ W : Type}

theorem newdoc_loop_le_init (l : List (MultiPostListInternal σ)) (n : Nat) :
    newdoc_loop n l ≤ n := by
  induction l generalizing n with
  | nil => simp [newdoc_loop]
  | cons i rest ih =>
    unfold newdoc_loop
    split
    · exact Nat.le_trans (ih _) (by omega)
    · exact ih _

theorem newdoc_loop_le_mem (l : List (MultiPostListInternal σ)) (n : Nat) :
    ∀ c ∈ l, newdoc_loop n l ≤ c.currdoc := by
  induction l generalizing n with
  | nil => simp
  | cons i rest ih =>
    intro c hc
    unfold newdoc_loop
    rcases List.mem_cons.mp hc with rfl | hc
    · split
      · exact newdoc_loop_le_init _ _
      · exact Nat.le_trans (newdoc_loop_le_init _ _) (by omega)
    · split
      · exact ih _ c hc
      · exact ih _ c hc

theorem newdoc_loop_eq (l : List (MultiPostListInternal σ)) (n : Nat) :
    newdoc_loop n l = n ∨ ∃ c ∈ l, newdoc_loop n l = c.currdoc := by
  induction l generalizing n with
  | nil => simp [newdoc_loop]
  | cons i rest ih =>
    unfold newdoc_loop
    split
    · rcases ih i.currdoc with h | ⟨c, hc, h⟩
      · exact Or.inr ⟨i, List.mem_cons_self _ _, h⟩
      · exact Or.inr ⟨c, List.mem_cons_of_mem _ hc, h⟩
    · rcases ih n with h | ⟨c, hc, h⟩
      · exact Or.inl h
      · exact Or.inr ⟨c, List.mem_cons_of_mem _ hc, h⟩

/-- The second loop computes the least `currdoc` of a non-empty cursor list. -/
theorem newdoc_loop_spec (i : MultiPostListInternal σ) (rest : List (MultiPostListInternal σ)) :
    (∀ c ∈ i :: rest, newdoc_loop i.currdoc rest ≤ c.currdoc) ∧
    (∃ c ∈ i :: rest, newdoc_loop i.currdoc rest = c.currdoc) := by
  constructor
  · intro c hc
    rcases List.mem_cons.mp hc with rfl | hc
    · exact newdoc_loop_le_init _ _
    · exact newdoc_loop_le_mem _ _ c hc
  · rcases newdoc_loop_eq rest i.currdoc with h | ⟨c, hc, h⟩
    · exact ⟨i, List.mem_cons_self _ _, h⟩
    · exact ⟨c, List.mem_cons_of_mem _ hc, h⟩

/-- Where the cursors left by the first loop come from: a cursor ahead of the merge is
kept as it is, a cursor not ahead of it has been advanced and was not at its end. -/
theorem mem_advance (ops : PostListOps σ W) (w : W) (cur : Nat)
    (l : List (MultiPostListInternal σ)) (c' : MultiPostListInternal σ)
    (h : c' ∈ advance ops w cur l) :
    (c' ∈ l ∧ cur < c'.currdoc) ∨
    (∃ c ∈ l, c.currdoc ≤ cur ∧ ops.at_end (ops.next w c.pl) = false ∧
      c' = { c with
             pl := ops.next w c.pl
             currdoc :=
               (globaldoc ops.docid_modulus (ops.get_docid (ops.next w c.pl)) c.multiplier
                 c.offset) }) := by
  induction l with
  | nil => simp [advance] at h
  | cons i rest ih =>
    unfold advance at h
    have lift : ((c' ∈ rest ∧ cur < c'.currdoc) ∨
        (∃ c ∈ rest, c.currdoc ≤ cur ∧ ops.at_end (ops.next w c.pl) = false ∧
          c' = { c with
                 pl := ops.next w c.pl
                 currdoc :=
                   (globaldoc ops.docid_modulus (ops.get_docid (ops.next w c.pl)) c.multiplier
                     c.offset) })) →
        ((c' ∈ i :: rest ∧ cur < c'.currdoc) ∨
        (∃ c ∈ i :: rest, c.currdoc ≤ cur ∧ ops.at_end (ops.next w c.pl) = false ∧
          c' = { c with
                 pl := ops.next w c.pl
                 currdoc :=
                   (globaldoc ops.docid_modulus (ops.get_docid (ops.next w c.pl)) c.multiplier
                     c.offset) })) := by
      rintro (⟨h1, h2⟩ | ⟨c, hc, h2⟩)
      · exact Or.inl ⟨List.mem_cons_of_mem _ h1, h2⟩
      · exact Or.inr ⟨c, List.mem_cons_of_mem _ hc, h2⟩
    by_cases hle : i.currdoc ≤ cur
    · rw [if_pos hle] at h
      by_cases hend : ops.at_end (ops.next w i.pl) = true
      · rw [if_pos hend] at h
        exact lift (ih h)
      · rw [if_neg hend] at h
        rcases List.mem_cons.mp h with rfl | h
        · exact Or.inr ⟨i, List.mem_cons_self _ _, hle, by simpa using hend, rfl⟩
        · exact lift (ih h)
    · rw [if_neg hle] at h
      rcases List.mem_cons.mp h with rfl | h
      · exact Or.inl ⟨List.mem_cons_self _ _, by omega⟩
      · exact lift (ih h)

theorem exactdoc_mono {d d' : Nat} (h : d ≤ d') (M off : Nat) :
    exactdoc d M off ≤ exactdoc d' M off := by
  unfold exactdoc
  exact Nat.add_le_add_right (Nat.mul_le_mul_right _ (Nat.sub_le_sub_right h 1)) _

/-- The multiplier and the offset of a cursor left by the first loop are those of a cursor
of the list before. -/
theorem advance_slot (ops : PostListOps σ W) (w : W) (cur : Nat)
    (l : List (MultiPostListInternal σ)) (c' : MultiPostListInternal σ)
    (h : c' ∈ advance ops w cur l) :
    ∃ c ∈ l, c'.multiplier = c.multiplier ∧ c'.offset = c.offset := by
  rcases mem_advance ops w cur l c' h with ⟨h1, _⟩ | ⟨c, hc, _, _, rfl⟩
  · exact ⟨c', h1, rfl, rfl⟩
  · exact ⟨c, hc, rfl, rfl⟩

theorem advance_fits (ops : PostListOps σ W) (positioned : σ → Prop) (w : W) (cur : Nat)
    (l : List (MultiPostListInternal σ)) (hfit : FitsDocid ops positioned l) :
    FitsDocid ops positioned (advance ops w cur l) := by
  intro c' hc' s hs
  obtain ⟨c, hc, hM, ho⟩ := advance_slot ops w cur l c' hc'
  rw [hM, ho]
  exact hfit c hc s hs

/-- After the first loop every cursor is fresh or on a posting with the `currdoc` the code
computes; and when no remapped id wraps around, no cursor is behind the old position of
the merge. -/
theorem advance_ok (ops : PostListOps σ W) {fresh positioned : σ → Prop}
    (hops : ops.Increasing fresh positioned) (w : W) (m : MultiPostList σ)
    (hinv : m.Inv ops fresh positioned) :
    ∀ c' ∈ advance ops w m.currdoc m.postlists,
      ((fresh c'.pl ∧ c'.currdoc = 0) ∨
       (positioned c'.pl ∧
         c'.currdoc =
           globaldoc ops.docid_modulus (ops.get_docid c'.pl) c'.multiplier c'.offset)) ∧
      (FitsDocid ops positioned m.postlists → m.currdoc ≤ c'.currdoc) := by
  intro c' hc'
  rcases mem_advance ops w _ _ c' hc' with ⟨hmem, hlt⟩ | ⟨c, hc, hle, hend, rfl⟩
  · exact ⟨(hinv c' hmem).2, fun _ => Nat.le_of_lt hlt⟩
  · obtain ⟨hge, hst⟩ := hinv c hc
    rcases hst with ⟨hf, h0⟩ | ⟨hp, hcd⟩
    · refine ⟨Or.inr ⟨hops.first w _ hf hend, rfl⟩, fun _ => ?_⟩
      show m.currdoc ≤ globaldoc _ _ _ _
      omega
    · obtain ⟨hp', hlt⟩ := hops.step w _ hp hend
      refine ⟨Or.inr ⟨hp', rfl⟩, fun hfit => ?_⟩
      show m.currdoc ≤ globaldoc _ _ _ _
      rw [globaldoc_of_fits _ _ _ _ (hfit c hc _ hp')]
      rw [globaldoc_of_fits _ _ _ _ (hfit c hc _ hp)] at hcd
      have := exactdoc_mono (Nat.le_of_lt hlt) c.multiplier c.offset
      omega

/-- The body of `next` keeps the invariant; when no remapped id wraps around it never
moves the merge backwards, and no remapped id wraps around afterwards either. -/
theorem next_body_inv (ops : PostListOps σ W) {fresh positioned : σ → Prop}
    (hops : ops.Increasing fresh positioned) (w : W) (m : MultiPostList σ)
    (hinv : m.Inv ops fresh positioned) :
    (next_body ops w m).Inv ops fresh positioned ∧
    (FitsDocid ops positioned m.postlists →
      m.currdoc ≤ (next_body ops w m).currdoc ∧
      FitsDocid ops positioned (next_body ops w m).postlists) := by
  have hadv := advance_ok ops hops w m hinv
  have hfits := advance_fits ops positioned w m.currdoc m.postlists
  unfold next_body
  split
  · exact ⟨fun c hc => (by simp at hc), fun _ => ⟨Nat.le_refl _, fun c hc => (by simp at hc)⟩⟩
  · rename_i i rest heq
    rw [heq] at hadv hfits
    obtain ⟨hmin, c0, hc0, hc0eq⟩ := newdoc_loop_spec i rest
    refine ⟨fun c hc => ⟨hmin c hc, (hadv c hc).1⟩, fun hfit => ⟨?_, hfits hfit⟩⟩
    show m.currdoc ≤ newdoc_loop i.currdoc rest
    rw [hc0eq]
    exact (hadv c0 hc0).2 hfit

theorem next_inv (ops : PostListOps σ W) {fresh positioned : σ → Prop}
    (hops : ops.Increasing fresh positioned) (w : W) (m m' : MultiPostList σ)
    (hinv : m.Inv ops fresh positioned) (h : next ops w m = .ok m') :
    m'.Inv ops fresh positioned ∧
    (FitsDocid ops positioned m.postlists →
      m.currdoc ≤ m'.currdoc ∧ FitsDocid ops positioned m'.postlists) := by
  unfold next at h
  split at h
  · cases h
  · cases h; exact next_body_inv ops hops w m hinv

theorem skip_to_loop_inv (ops : PostListOps σ W) {fresh positioned : σ → Prop}
    (hops : ops.Increasing fresh positioned) (did : Nat) (w : W) (fuel : Nat) :
    ∀ (m m' : MultiPostList σ), m.Inv ops fresh positioned →
      skip_to_loop ops did w fuel m = .ok m' →
      m'.Inv ops fresh positioned ∧
      (FitsDocid ops positioned m.postlists →
        m.currdoc ≤ m'.currdoc ∧ FitsDocid ops positioned m'.postlists) := by
  induction fuel with
  | zero =>
    intro m m' hinv h
    unfold skip_to_loop at h
    split at h
    · simp at h
    · cases h; exact ⟨hinv, fun hfit => ⟨Nat.le_refl _, hfit⟩⟩
  | succ n ih =>
    intro m m' hinv h
    unfold skip_to_loop at h
    split at h
    · cases hn : next ops w m with
      | error e => rw [hn] at h; cases h
      | ok m1 =>
        rw [hn] at h
        simp only at h
        obtain ⟨h1, h2⟩ := next_inv ops hops w m m1 hinv hn
        obtain ⟨h3, h4⟩ := ih _ _ h1 h
        refine ⟨h3, fun hfit => ?_⟩
        obtain ⟨h5, h6⟩ := h2 hfit
        obtain ⟨h7, h8⟩ := h4 h6
        exact ⟨Nat.le_trans h5 h7, h8⟩
    · cases h; exact ⟨hinv, fun hfit => ⟨Nat.le_refl _, hfit⟩⟩

theorem skip_to_inv (ops : PostListOps σ W) {fresh positioned : σ → Prop}
    (hops : ops.Increasing fresh positioned) (fuel did : Nat) (w : W) (m m' : MultiPostList σ)
    (hinv : m.Inv ops fresh positioned) (h : skip_to ops fuel did w m = .ok m') :
    m'.Inv ops fresh positioned ∧
    (FitsDocid ops positioned m.postlists →
      m.currdoc ≤ m'.currdoc ∧ FitsDocid ops positioned m'.postlists) := by
  unfold skip_to at h
  split at h
  · cases h
  · exact skip_to_loop_inv ops hops did w fuel m m' hinv h

theorem reachable_inv (ops : PostListOps σ W) {fresh positioned : σ → Prop}
    (hops : ops.Increasing fresh positioned) (m : MultiPostList σ)
    (hr : Reachable ops fresh m) : m.Inv ops fresh positioned := by
  induction hr with
  | create pls h =>
    intro c hc
    obtain ⟨pl, off, mult, hf, rfl⟩ := h c hc
    exact ⟨Nat.le_refl _, Or.inl ⟨hf, rfl⟩⟩
  | next w m m' _ hn ih => exact (next_inv ops hops w m m' ih hn).1
  | skip_to fuel did w m m' _ hn ih => exact (skip_to_inv ops hops fuel did w m m' ih hn).1

end MultiPostList

/-! ## List-backed sub-postlists are well behaved -/

namespace ListPostList

variable {B : Nat} {W : Type}

theorem wellFormed_tail {l : List (Nat × W)} (h : WellFormed l) : WellFormed l.tail := by
  cases l with
  | nil => exact h
  | cons p rest =>
    obtain ⟨h1, h2⟩ := h
    rw [List.map_cons, List.pairwise_cons] at h1
    exact ⟨h1.2, fun q hq => h2 q (List.mem_cons_of_mem _ hq)⟩

theorem increasing [Zero W] :
    (ops : PostListOps (ListPostList B W) W).Increasing Fresh Positioned where
  first := by
    rintro w ⟨st, l⟩ ⟨hst, hwf⟩ hend
    simp only at hst
    subst hst
    cases l with
    | nil => simp [ops, next, at_end] at hend
    | cons p rest => exact ⟨by simp [ops, next], by simp [ops, next], by simpa [ops, next] using hwf⟩
  step := by
    rintro w ⟨st, l⟩ ⟨hst, hne, hwf⟩ hend
    simp only at hst hne
    subst hst
    cases l with
    | nil => exact absurd rfl hne
    | cons p rest =>
      cases rest with
      | nil => simp [ops, next, at_end] at hend
      | cons q rest2 =>
        refine ⟨⟨by simp [ops, next], by simp [ops, next], ?_⟩, ?_⟩
        · simpa [ops, next] using wellFormed_tail hwf
        · have h1 := hwf.1
          simp only [List.map_cons, List.pairwise_cons] at h1
          simpa [ops, next, get_docid] using h1.1 q.1 (by simp)
  docid_pos := by
    rintro ⟨st, l⟩ ⟨hst, hne, hwf⟩
    simp only at hst hne
    subst hst
    cases l with
    | nil => exact absurd rfl hne
    | cons p rest => simpa [ops, get_docid] using hwf.2 p (List.mem_cons_self _ _)

end ListPostList

theorem listCursors_fresh {B : Nat} {W : Type} [Zero W] (M : Nat) (subs : List (List (Nat × W) × Nat))
    (hwf : ∀ s ∈ subs, ListPostList.WellFormed s.1) :
    ∀ c ∈ listCursors B M subs, ∃ pl offset multiplier,
      ListPostList.Fresh pl ∧ c = MultiPostListInternal.create pl offset multiplier := by
  intro c hc
  obtain ⟨s, hs, rfl⟩ := List.mem_map.mp hc
  exact ⟨_, _, _, ⟨rfl, hwf s hs⟩, rfl⟩

theorem exampleSubs_wellFormed : ∀ s ∈ exampleSubs, ListPostList.WellFormed s.1 := by
  intro s hs
  simp only [exampleSubs, List.mem_cons, List.mem_singleton, List.not_mem_nil, or_false] at hs
  rcases hs with rfl | rfl | rfl <;> simp [ListPostList.WellFormed]

/-! ## C3 -/

theorem wrapSubs_wellFormed : ∀ s ∈ wrapSubs, ListPostList.WellFormed s.1 := by
  intro s hs
  simp only [wrapSubs, List.mem_singleton] at hs
  subst hs
  simp [ListPostList.WellFormed]

namespace MultiPostList

variable {σ W : Type}

end MultiPostList

theorem MultiPostList.get_weight_loop_eq {σ W : Type} [Add W] (ops : PostListOps σ W)
    (currdoc : Nat) (l : List (MultiPostListInternal σ)) (wt : W) :
    MultiPostList.get_weight_loop ops currdoc wt l =
      ((l.filter fun i => decide (i.currdoc = currdoc)).map fun i => ops.get_weight i.pl).foldl
        (· + ·) wt := by
  induction l generalizing wt with
  | nil => rfl
  | cons i rest ih =>
    unfold MultiPostList.get_weight_loop
    by_cases h : i.currdoc = currdoc
    · rw [if_pos h, ih, List.filter_cons_of_pos (by simpa using h)]
      rfl
    · rw [if_neg h, ih, List.filter_cons_of_neg (by simpa using h)]

/-- C4: when the assertion `freq_initialised` of `MultiPostList::get_weight()` holds, the
method returns the sum, accumulated from `0` in list order, of the sub-postlist weights of
exactly those cursors whose `currdoc` equals the `currdoc` of the merge; the other cursors
contribute nothing.  (The method is `const` and writes no member: its embedding has no
state to return.) -/
theorem get_weight_sums_cursors_at_currdoc {σ W : Type} [Zero W] [Add W]
    (ops : PostListOps σ W) (m : MultiPostList σ) (h : m.freq_initialised = true) :
    MultiPostList.get_weight ops m =
      .ok (((m.postlists.filter fun i => decide (i.currdoc = m.currdoc)).map
        fun i => ops.get_weight i.pl).foldl (· + ·) 0) := by
  unfold MultiPostList.get_weight
  rw [if_pos h, MultiPostList.get_weight_loop_eq]

/-- Witness of C4: of three cursors with weights `10`, `20`, `30`, the first and the last
are on the merge's position `5`; the weight returned is `40`. -/
theorem get_weight_sums_cursors_at_currdoc_witness :
    MultiPostList.get_weight (ListPostList.ops : PostListOps (ListPostList docid32 Nat) Nat)
      { postlists :=
          [{ pl := { started := true, postings := [(2, 10)] }, currdoc := 5, offset := 2,
             multiplier := 3 },
           { pl := { started := true, postings := [(3, 20)] }, currdoc := 7, offset := 1,
             multiplier := 3 },
           { pl := { started := true, postings := [(2, 30)] }, currdoc := 5, offset := 2,
             multiplier := 3 }]
        finished := false, currdoc := 5, freq_initialised := true } = .ok 40 :=
  get_weight_sums_cursors_at_currdoc ListPostList.ops _ rfl

/-! ## C5 -/

namespace MultiPostList

variable {σ W : Type}

theorem loop_cond_eq (did : Nat) (m : MultiPostList σ) :
    (!m.at_end && decide (m.currdoc < did)) = !reached did m := by
  unfold reached
  by_cases h : did ≤ m.currdoc
  · have h2 : ¬ m.currdoc < did := by omega
    simp [h, h2]
  · have h2 : m.currdoc < did := by omega
    simp [h, h2]

theorem skip_to_loop_of_nexts (ops : PostListOps σ W) (did : Nat) (w : W) (k : Nat) :
    ∀ (m mk : MultiPostList σ), nexts ops w k m = .ok mk → reached did mk = true →
      (∀ j < k, ∀ mj, nexts ops w j m = .ok mj → reached did mj = false) →
      ∀ fuel, k ≤ fuel → skip_to_loop ops did w fuel m = .ok mk := by
  induction k with
  | zero =>
    intro m mk hk hstop _ fuel _
    simp only [nexts, Except.ok.injEq] at hk
    subst hk
    unfold skip_to_loop
    rw [loop_cond_eq, hstop]
    rfl
  | succ k ih =>
    intro m mk hk hstop hleast fuel hfuel
    have h0 : reached did m = false := hleast 0 (Nat.succ_pos k) m rfl
    obtain ⟨f, rfl⟩ : ∃ f, fuel = f + 1 := ⟨fuel - 1, by omega⟩
    unfold skip_to_loop
    rw [loop_cond_eq, h0]
    simp only [Bool.not_false, if_true]
    simp only [nexts] at hk
    cases hn : next ops w m with
    | error e => rw [hn] at hk; cases hk
    | ok m1 =>
      rw [hn] at hk
      simp only
      refine ih m1 mk hk hstop (fun j hj mj hmj => ?_) f (by omega)
      refine hleast (j + 1) (by omega) mj ?_
      simp only [nexts, hn]
      exact hmj

theorem nexts_of_skip_to_loop (ops : PostListOps σ W) (did : Nat) (w : W) (fuel : Nat) :
    ∀ (m m' : MultiPostList σ), skip_to_loop ops did w fuel m = .ok m' →
      ∃ k, k ≤ fuel ∧ nexts ops w k m = .ok m' ∧ reached did m' = true ∧
        ∀ j < k, ∀ mj, nexts ops w j m = .ok mj → reached did mj = false := by
  induction fuel with
  | zero =>
    intro m m' h
    unfold skip_to_loop at h
    rw [loop_cond_eq] at h
    cases hr : reached did m with
    | false => rw [hr] at h; simp at h
    | true =>
      rw [hr] at h
      simp only [Bool.not_true, Bool.false_eq_true, if_false, Except.ok.injEq] at h
      subst h
      exact ⟨0, Nat.le_refl _, rfl, hr, fun j hj => absurd hj (Nat.not_lt_zero _)⟩
  | succ f ih =>
    intro m m' h
    unfold skip_to_loop at h
    rw [loop_cond_eq] at h
    cases hr : reached did m with
    | true =>
      rw [hr] at h
      simp only [Bool.not_true, Bool.false_eq_true, if_false, Except.ok.injEq] at h
      subst h
      exact ⟨0, Nat.zero_le _, rfl, hr, fun j hj => absurd hj (Nat.not_lt_zero _)⟩
    | false =>
      rw [hr] at h
      simp only [Bool.not_false, if_true] at h
      cases hn : next ops w m with
      | error e => rw [hn] at h; cases h
      | ok m1 =>
        rw [hn] at h
        simp only at h
        obtain ⟨k, hk, hnk, hstop, hleast⟩ := ih m1 m' h
        refine ⟨k + 1, by omega, by simp only [nexts, hn]; exact hnk, hstop, ?_⟩
        intro j hj mj hmj
        cases j with
        | zero =>
          simp only [nexts, Except.ok.injEq] at hmj
          subst hmj
          exact hr
        | succ j =>
          simp only [nexts, hn] at hmj
          exact hleast j (by omega) mj hmj

end MultiPostList

/-- C5: `skip_to` is repeated `next`.  On a merge that is not exhausted, for every target
`did` and every `w_min`:
(1) if `k` is the least number of `next(w_min)` calls after which the merge is exhausted or
`currdoc ≥ did`, then `skip_to(did, w_min)` returns (an iteration budget of `k` is enough)
and leaves exactly the state that `k` calls of `next(w_min)` leave;
(2) conversely every state `skip_to` returns is the state after such a least number of
`next` calls;
(3) when `currdoc ≥ did` already it returns the state unchanged;
(4) on return the merge is exhausted or `currdoc ≥ did`. -/
theorem skip_to_is_repeated_next {σ W : Type} (ops : PostListOps σ W) (did : Nat) (w_min : W)
    (m : MultiPostList σ) (hm : m.at_end = false) :
    (∀ k mk, MultiPostList.nexts ops w_min k m = .ok mk →
      MultiPostList.reached did mk = true →
      (∀ j < k, ∀ mj, MultiPostList.nexts ops w_min j m = .ok mj →
        MultiPostList.reached did mj = false) →
      ∀ fuel, k ≤ fuel → MultiPostList.skip_to ops fuel did w_min m = .ok mk) ∧
    (∀ fuel m', MultiPostList.skip_to ops fuel did w_min m = .ok m' →
      ∃ k, k ≤ fuel ∧ MultiPostList.nexts ops w_min k m = .ok m' ∧
        MultiPostList.reached did m' = true ∧
        ∀ j < k, ∀ mj, MultiPostList.nexts ops w_min j m = .ok mj →
          MultiPostList.reached did mj = false) ∧
    (did ≤ m.currdoc → ∀ fuel, MultiPostList.skip_to ops fuel did w_min m = .ok m) ∧
    (∀ fuel m', MultiPostList.skip_to ops fuel did w_min m = .ok m' →
      m'.at_end = true ∨ did ≤ m'.currdoc) := by
  have hskip : ∀ fuel, MultiPostList.skip_to ops fuel did w_min m =
      MultiPostList.skip_to_loop ops did w_min fuel m := by
    intro fuel
    unfold MultiPostList.skip_to
    rw [hm]
    rfl
  refine ⟨?_, ?_, ?_, ?_⟩
  · intro k mk hk hstop hleast fuel hfuel
    rw [hskip]
    exact MultiPostList.skip_to_loop_of_nexts ops did w_min k m mk hk hstop hleast fuel hfuel
  · intro fuel m' h
    rw [hskip] at h
    exact MultiPostList.nexts_of_skip_to_loop ops did w_min fuel m m' h
  · intro hdid fuel
    rw [hskip]
    refine MultiPostList.skip_to_loop_of_nexts ops did w_min 0 m m rfl ?_
      (fun j hj => absurd hj (Nat.not_lt_zero _)) fuel (Nat.zero_le _)
    simp [MultiPostList.reached, hdid]
  · intro fuel m' h
    rw [hskip] at h
    obtain ⟨k, _, _, hstop, _⟩ := MultiPostList.nexts_of_skip_to_loop ops did w_min fuel m m' h
    simpa [MultiPostList.reached] using hstop

/-- Witness of C5 on the example of the specification: from position `1`, `skip_to(6)`
leaves the state that three calls of `next` leave, at position `7`. -/
theorem skip_to_is_repeated_next_witness :
    (MultiPostList.next_body ListPostList.ops 0 exampleMerge).at_end = false ∧
    ∃ mk, MultiPostList.nexts ListPostList.ops 0 3
        (MultiPostList.next_body ListPostList.ops 0 exampleMerge) = .ok mk ∧
      mk.currdoc = 7 ∧
      MultiPostList.skip_to ListPostList.ops 3 6 0
        (MultiPostList.next_body ListPostList.ops 0 exampleMerge) = .ok mk :=
  ⟨rfl, _, rfl, by decide,
    (skip_to_is_repeated_next ListPostList.ops 6 0
      (MultiPostList.next_body ListPostList.ops 0 exampleMerge) rfl).1 3 _ rfl (by decide)
      (by
        intro j hj mj h
        interval_cases j
        · injection h with h; subst h; decide
        · injection h with h; subst h; decide
        · injection h with h; subst h; decide)
      3 (Nat.le_refl 3)⟩

/-! ## Opening a postlist on the multi-database -/

namespace MultiDatabase

variable {δ σ R D T ρ : Type}

theorem term_exists_loop_eq_true (dops : IRDatabaseOps δ σ R D T ρ) (tname : String)
    (l : List δ) :
    term_exists_loop dops tname l = true ↔ ∃ d ∈ l, dops.term_exists d tname = true := by
  induction l with
  | nil => simp [term_exists_loop]
  | cons i rest ih =>
    unfold term_exists_loop
    by_cases h : dops.term_exists i tname = true
    · simp [h]
    · simp [h, ih]

/-- On an opened database `term_exists` returns; it changes `used` and `terms` only,
answers `true` when some sub-database has the term, and answers `false` only when none
has it. -/
theorem term_exists_opened (dops : IRDatabaseOps δ σ R D T ρ) (self : MultiDatabase δ ρ)
    (tname : String) (hopen : self.opened = true) :
    ∃ b terms', term_exists dops self tname = .ok (b, { self with used := true, terms := terms' }) ∧
      ((∃ d ∈ self.databases, dops.term_exists d tname = true) → b = true) ∧
      (b = false → ∀ d ∈ self.databases, dops.term_exists d tname = false) := by
  unfold term_exists
  simp only [hopen, Bool.not_true, Bool.false_eq_true, if_false]
  by_cases hc : tname ∈ self.terms
  · exact ⟨true, self.terms, by simp [hc], fun _ => rfl, fun h => by cases h⟩
  · by_cases hl : term_exists_loop dops tname self.databases = true
    · exact ⟨true, tname :: self.terms, by simp [hc, hl], fun _ => rfl, fun h => by cases h⟩
    · refine ⟨false, self.terms, by simp [hc, hl], fun hex => ?_, fun _ d hd => ?_⟩
      · exact absurd ((term_exists_loop_eq_true dops tname _).mpr hex) hl
      · by_contra hd2
        exact hl ((term_exists_loop_eq_true dops tname _).mpr ⟨d, hd, by simpa using hd2⟩)

/-- The loop of `open_post_list` makes one cursor for every sub-database that has the
term, numbered by its place among all sub-databases. -/
theorem open_post_list_loop_eq (dops : IRDatabaseOps δ σ R D T ρ) (tname : String) (rset : R)
    (multiplier : Nat) (l : List δ) (offset : Nat) :
    open_post_list_loop dops tname rset multiplier offset l =
      ((l.enumFrom offset).filter fun p => dops.term_exists p.2 tname).map fun p =>
        MultiPostListInternal.create (dops.open_post_list p.2 tname rset) p.1 multiplier := by
  induction l generalizing offset with
  | nil => rfl
  | cons i rest ih =>
    unfold open_post_list_loop
    by_cases h : dops.term_exists i tname = true
    · rw [if_pos h, ih, List.enumFrom_cons, List.filter_cons_of_pos (by simpa using h)]
      rfl
    · rw [if_neg h, ih, List.enumFrom_cons, List.filter_cons_of_neg (by simpa using h)]

theorem open_post_list_loop_pls (dops : IRDatabaseOps δ σ R D T ρ) (tname : String) (rset : R)
    (multiplier : Nat) (l : List δ) (offset : Nat) :
    (open_post_list_loop dops tname rset multiplier offset l).map (·.pl) =
      (l.filter fun d => dops.term_exists d tname).map fun d =>
        dops.open_post_list d tname rset := by
  induction l generalizing offset with
  | nil => rfl
  | cons i rest ih =>
    unfold open_post_list_loop
    by_cases h : dops.term_exists i tname = true
    · rw [if_pos h, List.map_cons, ih, List.filter_cons_of_pos (by simpa using h)]
      rfl
    · rw [if_neg h, ih, List.filter_cons_of_neg (by simpa using h)]

theorem open_post_list_loop_eq_nil (dops : IRDatabaseOps δ σ R D T ρ) (tname : String)
    (rset : R) (multiplier : Nat) (l : List δ) (offset : Nat) :
    open_post_list_loop dops tname rset multiplier offset l = [] ↔
      ∀ d ∈ l, dops.term_exists d tname = false := by
  induction l generalizing offset with
  | nil => simp [open_post_list_loop]
  | cons i rest ih =>
    unfold open_post_list_loop
    by_cases h : dops.term_exists i tname = true
    · simp [h]
    · simp [h, ih]

/-- What `open_post_list` does on an opened database: it fails on an assertion when no
sub-database has the term, and otherwise returns the merge over the cursors of its loop,
leaving a database that differs in `used` and `terms` only. -/
theorem open_post_list_opened (dops : IRDatabaseOps δ σ R D T ρ) (self : MultiDatabase δ ρ)
    (tname : String) (rset : R) (hopen : self.opened = true) :
    ((∀ d ∈ self.databases, dops.term_exists d tname = false) ∧
      open_post_list dops self tname rset = .error Fault.assertion) ∨
    ((∃ d ∈ self.databases, dops.term_exists d tname = true) ∧
      ∃ terms', open_post_list dops self tname rset =
        .ok (MultiPostList.create
              (open_post_list_loop dops tname rset self.databases.length 1 self.databases),
             { self with used := true, terms := terms' })) := by
  obtain ⟨b, terms', hte, hb1, hb2⟩ :=
    term_exists_opened dops { self with used := true } tname hopen
  have hunf : open_post_list dops self tname rset =
      if (!b) = true then .error Fault.assertion
      else
        match open_post_list_loop dops tname rset self.databases.length 1 self.databases with
        | [] => .error Fault.assertion
        | pl :: pls =>
          .ok (MultiPostList.create (pl :: pls), { self with used := true, terms := terms' }) := by
    unfold open_post_list
    rw [if_neg (by simp [hopen]), hte]
  rw [hunf]
  by_cases hex : ∃ d ∈ self.databases, dops.term_exists d tname = true
  · right
    refine ⟨hex, terms', ?_⟩
    have hb : b = true := hb1 hex
    subst hb
    have hne : open_post_list_loop dops tname rset self.databases.length 1 self.databases ≠ [] := by
      intro h
      obtain ⟨d, hd, hdt⟩ := hex
      have := (open_post_list_loop_eq_nil dops tname rset _ _ _).mp h d hd
      rw [this] at hdt
      cases hdt
    rw [if_neg (by simp)]
    split
    · rename_i heq
      exact absurd heq hne
    · rename_i pl pls heq
      rw [heq]
  · left
    have hall : ∀ d ∈ self.databases, dops.term_exists d tname = false := by
      intro d hd
      by_contra h
      exact hex ⟨d, hd, by simpa using h⟩
    refine ⟨hall, ?_⟩
    cases b with
    | false => rfl
    | true =>
      rw [if_neg (by simp), (open_post_list_loop_eq_nil dops tname rset _ _ _).mpr hall]

end MultiDatabase

namespace MultiDatabase

variable {δ σ R D T ρ : Type}

theorem open_post_list_loop_bounds (dops : IRDatabaseOps δ σ R D T ρ) (tname : String)
    (rset : R) (multiplier : Nat) (l : List δ) (offset : Nat) :
    ((open_post_list_loop dops tname rset multiplier offset l).map (·.offset)).Pairwise (· < ·) ∧
    ∀ c ∈ open_post_list_loop dops tname rset multiplier offset l,
      offset ≤ c.offset ∧ c.offset < offset + l.length ∧ c.multiplier = multiplier ∧
        c.currdoc = 0 := by
  induction l generalizing offset with
  | nil => simp [open_post_list_loop]
  | cons i rest ih =>
    obtain ⟨ih1, ih2⟩ := ih (offset + 1)
    have hrest : ∀ c ∈ open_post_list_loop dops tname rset multiplier (offset + 1) rest,
        offset ≤ c.offset ∧ c.offset < offset + (i :: rest).length ∧
          c.multiplier = multiplier ∧ c.currdoc = 0 := by
      intro c hc
      obtain ⟨h1, h2, h3, h4⟩ := ih2 c hc
      rw [List.length_cons]
      exact ⟨by omega, by omega, h3, h4⟩
    unfold open_post_list_loop
    by_cases h : dops.term_exists i tname = true
    · rw [if_pos h]
      refine ⟨?_, ?_⟩
      · rw [List.map_cons, List.pairwise_cons]
        refine ⟨?_, ih1⟩
        intro o ho
        obtain ⟨c, hc, rfl⟩ := List.mem_map.mp ho
        have := (ih2 c hc).1
        show offset < c.offset
        omega
      · intro c hc
        rcases List.mem_cons.mp hc with rfl | hc
        · rw [List.length_cons]
          exact ⟨Nat.le_refl _, by show offset < _; omega, rfl, rfl⟩
        · exact hrest c hc
    · rw [if_neg h]
      exact ⟨ih1, hrest⟩

theorem open_post_list_loop_mem (dops : IRDatabaseOps δ σ R D T ρ) (tname : String)
    (rset : R) (multiplier : Nat) (l : List δ) (offset k : Nat) (d : δ)
    (hk : l[k]? = some d) (hd : dops.term_exists d tname = true) :
    MultiPostListInternal.create (dops.open_post_list d tname rset) (offset + k) multiplier ∈
      open_post_list_loop dops tname rset multiplier offset l := by
  induction l generalizing offset k with
  | nil => simp at hk
  | cons i rest ih =>
    unfold open_post_list_loop
    cases k with
    | zero =>
      simp only [List.getElem?_cons_zero, Option.some.injEq] at hk
      subst hk
      rw [if_pos hd]
      exact List.mem_cons_self _ _
    | succ k =>
      simp only [List.getElem?_cons_succ] at hk
      have := ih (offset + 1) k hk
      have hoff : offset + (k + 1) = offset + 1 + k := by omega
      rw [hoff]
      split
      · exact List.mem_cons_of_mem _ this
      · exact this

theorem opened_of_open_post_list (dops : IRDatabaseOps δ σ R D T ρ) (self : MultiDatabase δ ρ)
    (tname : String) (rset : R) (pl : MultiPostList σ) (s' : MultiDatabase δ ρ)
    (h : open_post_list dops self tname rset = .ok (pl, s')) : self.opened = true := by
  by_contra hno
  unfold open_post_list at h
  rw [if_pos (by simpa using hno)] at h
  cases h

/-- The merge that a returning `open_post_list` has built. -/
theorem open_post_list_ok (dops : IRDatabaseOps δ σ R D T ρ) (self : MultiDatabase δ ρ)
    (tname : String) (rset : R) (pl : MultiPostList σ) (s' : MultiDatabase δ ρ)
    (h : open_post_list dops self tname rset = .ok (pl, s')) :
    (∃ d ∈ self.databases, dops.term_exists d tname = true) ∧
    pl = MultiPostList.create
      (open_post_list_loop dops tname rset self.databases.length 1 self.databases) := by
  have hopen := opened_of_open_post_list dops self tname rset pl s' h
  rcases open_post_list_opened dops self tname rset hopen with ⟨_, herr⟩ | ⟨hex, terms', hok⟩
  · rw [herr] at h; cases h
  · rw [hok] at h
    simp only [Except.ok.injEq, Prod.mk.injEq] at h
    exact ⟨hex, h.1.symm⟩

end MultiDatabase

/-! ## C6 -/

/-- C6: on an opened `MultiDatabase`, `open_post_list(term)` fails (on an assertion, so
that no `MultiPostList` is built) if and only if no sub-database has the term, and returns
if and only if some sub-database has it; a `MultiPostList` it returns holds at least one
cursor, namely one for each sub-database whose `term_exists(term)` is true, in order, each
wrapping the postlist that sub-database opened. -/
theorem open_post_list_fails_iff_term_nowhere {δ σ R D T ρ : Type}
    (dops : IRDatabaseOps δ σ R D T ρ) (self : MultiDatabase δ ρ) (tname : String) (rset : R)
    (hopen : self.opened = true) :
    (MultiDatabase.open_post_list dops self tname rset = .error Fault.assertion ↔
      ∀ d ∈ self.databases, dops.term_exists d tname = false) ∧
    ((∃ pl s', MultiDatabase.open_post_list dops self tname rset = .ok (pl, s')) ↔
      ∃ d ∈ self.databases, dops.term_exists d tname = true) ∧
    (∀ pl s', MultiDatabase.open_post_list dops self tname rset = .ok (pl, s') →
      pl.postlists ≠ [] ∧
      pl.postlists.map (·.pl) =
        (self.databases.filter fun d => dops.term_exists d tname).map
          fun d => dops.open_post_list d tname rset) := by
  have hcase := MultiDatabase.open_post_list_opened dops self tname rset hopen
  refine ⟨⟨fun herr => ?_, fun hall => ?_⟩, ⟨fun hok => ?_, fun hex => ?_⟩, fun pl s' hok => ?_⟩
  · rcases hcase with ⟨hall, _⟩ | ⟨_, terms', hok⟩
    · exact hall
    · rw [hok] at herr; cases herr
  · rcases hcase with ⟨_, herr⟩ | ⟨⟨d, hd, hdt⟩, _⟩
    · exact herr
    · rw [hall d hd] at hdt; cases hdt
  · obtain ⟨pl, s', hok⟩ := hok
    exact (MultiDatabase.open_post_list_ok dops self tname rset pl s' hok).1
  · rcases hcase with ⟨hall, _⟩ | ⟨_, terms', hok⟩
    · obtain ⟨d, hd, hdt⟩ := hex
      rw [hall d hd] at hdt; cases hdt
    · exact ⟨_, _, hok⟩
  · obtain ⟨⟨d, hd, hdt⟩, rfl⟩ := MultiDatabase.open_post_list_ok dops self tname rset pl s' hok
    refine ⟨?_, MultiDatabase.open_post_list_loop_pls dops tname rset _ _ _⟩
    intro hnil
    have := (MultiDatabase.open_post_list_loop_eq_nil dops tname rset _ _ _).mp hnil d hd
    rw [this] at hdt
    cases hdt

/-- Witness of C6: on the example database the term `"z"`, which no sub-database has,
makes `open_post_list` fail, and the term `"a"` makes it return. -/
theorem open_post_list_fails_iff_term_nowhere_witness :
    exampleDatabase.opened = true ∧
    MultiDatabase.open_post_list exampleDops exampleDatabase "z" () = .error Fault.assertion ∧
    ∃ pl s', MultiDatabase.open_post_list exampleDops exampleDatabase "a" () = .ok (pl, s') :=
  ⟨rfl,
    (open_post_list_fails_iff_term_nowhere exampleDops exampleDatabase "z" () rfl).1.mpr
      (by decide),
    (open_post_list_fails_iff_term_nowhere exampleDops exampleDatabase "a" () rfl).2.1.mpr
      (by decide)⟩

/-! ## C7 -/

/-- C7: slot indices are stable under skipping.  In the cursor list that `open_post_list`
builds over `N` sub-databases, the cursors are those of the sub-databases that have the
term, in order, the one for the sub-database at 0-based position `k` carrying offset
`k + 1` and multiplier `N` whichever earlier sub-databases lack the term; hence the
offsets are strictly increasing in list order, pairwise distinct and all within
`[1, N]`. -/
theorem open_post_list_offsets_stable {δ σ R D T ρ : Type}
    (dops : IRDatabaseOps δ σ R D T ρ) (self : MultiDatabase δ ρ) (tname : String) (rset : R)
    (pl : MultiPostList σ) (s' : MultiDatabase δ ρ)
    (h : MultiDatabase.open_post_list dops self tname rset = .ok (pl, s')) :
    pl.postlists =
      (((self.databases.enumFrom 1).filter fun p => dops.term_exists p.2 tname).map fun p =>
        MultiPostListInternal.create (dops.open_post_list p.2 tname rset) p.1
          self.databases.length) ∧
    (∀ k d, self.databases[k]? = some d → dops.term_exists d tname = true →
      MultiPostListInternal.create (dops.open_post_list d tname rset) (k + 1)
        self.databases.length ∈ pl.postlists) ∧
    (pl.postlists.map (·.offset)).Pairwise (· < ·) ∧
    (pl.postlists.map (·.offset)).Nodup ∧
    (∀ c ∈ pl.postlists,
      1 ≤ c.offset ∧ c.offset ≤ self.databases.length ∧
        c.multiplier = self.databases.length) := by
  obtain ⟨_, rfl⟩ := MultiDatabase.open_post_list_ok dops self tname rset pl s' h
  obtain ⟨hpw, hb⟩ :=
    MultiDatabase.open_post_list_loop_bounds dops tname rset self.databases.length
      self.databases 1
  refine ⟨MultiDatabase.open_post_list_loop_eq dops tname rset _ _ _, ?_, hpw, ?_, ?_⟩
  · intro k d hk hd
    have := MultiDatabase.open_post_list_loop_mem dops tname rset self.databases.length
      self.databases 1 k d hk hd
    rw [Nat.add_comm 1 k] at this
    exact this
  · exact hpw.imp (fun hlt => Nat.ne_of_lt hlt)
  · intro c hc
    obtain ⟨h1, h2, h3, _⟩ := hb c hc
    exact ⟨h1, by omega, h3⟩

/-- Witness of C7: on the example database the term `"a"` is in the first and the third of
the three sub-databases; the two cursors carry the offsets `1` and `3` and multiplier
`3`. -/
theorem open_post_list_offsets_stable_witness :
    ∃ pl s', MultiDatabase.open_post_list exampleDops exampleDatabase "a" () = .ok (pl, s') ∧
      pl.postlists.map (fun c => (c.offset, c.multiplier)) = [(1, 3), (3, 3)] ∧
      (pl.postlists.map (·.offset)).Pairwise (· < ·) :=
  ⟨_, _, rfl, by decide,
    (open_post_list_offsets_stable exampleDops exampleDatabase "a" () _ _ rfl).2.2.1⟩

/-! ## C8 -/

namespace MultiDatabase

variable {δ σ R D T ρ : Type}

theorem open_ok (dops : IRDatabaseOps δ σ R D T ρ) (s s' : MultiDatabase δ ρ)
    (params : DatabaseBuilderParams ρ) (h : open_ dops s params = .ok s') :
    s'.opened = true ∧ 1 ≤ s'.databases.length := by
  unfold open_ at h
  split at h
  · cases h
  · split at h
    · cases h
    · split at h
      · cases h
      · rename_i hlen
        cases h
        refine ⟨rfl, ?_⟩
        simp only [List.length_append, List.length_map]
        omega

theorem set_root_ok (dops : IRDatabaseOps δ σ R D T ρ) (s s' : MultiDatabase δ ρ) (db : ρ)
    (h : set_root dops s db = .ok s') :
    s'.opened = s.opened ∧ s'.databases.length = s.databases.length := by
  unfold set_root at h
  split at h
  · cases h
  · cases h
    exact ⟨rfl, List.length_map _ _⟩

theorem term_exists_ok (dops : IRDatabaseOps δ σ R D T ρ) (s s' : MultiDatabase δ ρ)
    (tname : String) (b : Bool) (h : term_exists dops s tname = .ok (b, s')) :
    s'.opened = s.opened ∧ s'.databases = s.databases := by
  unfold term_exists at h
  split at h
  · cases h
  · simp only at h
    split at h
    · cases h; exact ⟨rfl, rfl⟩
    · split at h
      · cases h; exact ⟨rfl, rfl⟩
      · cases h; exact ⟨rfl, rfl⟩

theorem open_post_list_frame (dops : IRDatabaseOps δ σ R D T ρ) (s s' : MultiDatabase δ ρ)
    (tname : String) (rset : R) (pl : MultiPostList σ)
    (h : open_post_list dops s tname rset = .ok (pl, s')) :
    s'.opened = s.opened ∧ s'.databases = s.databases := by
  have hopen := opened_of_open_post_list dops s tname rset pl s' h
  rcases open_post_list_opened dops s tname rset hopen with ⟨_, herr⟩ | ⟨_, terms', hok⟩
  · rw [herr] at h; cases h
  · rw [hok] at h
    simp only [Except.ok.injEq, Prod.mk.injEq] at h
    rw [← h.2]
    exact ⟨rfl, rfl⟩

/-- On an opened database with at least one sub-database, `open_term_list` and
`open_document` return what the sub-database `(did - 1) % M` returns for the local id
`(did - 1) / M + 1`, and set `used`. -/
theorem open_by_did (dops : IRDatabaseOps δ σ R D T ρ) (s : MultiDatabase δ ρ) (did : Nat)
    (hopen : s.opened = true) (hlen : 1 ≤ s.databases.length) :
    dbnumber s.databases.length did < s.databases.length ∧
    ∃ db, s.databases[dbnumber s.databases.length did]? = some db ∧
      open_document dops s did =
        .ok (dops.open_document db (realdid s.databases.length did), { s with used := true }) ∧
      open_term_list dops s did =
        .ok ({ tl := dops.open_term_list db (realdid s.databases.length did), termdb := db },
             { s with used := true }) := by
  have hlt : dbnumber s.databases.length did < s.databases.length :=
    Nat.mod_lt _ (by omega)
  have hne : ¬ s.databases.length = 0 := by omega
  refine ⟨hlt, s.databases[dbnumber s.databases.length did], List.getElem?_eq_getElem hlt, ?_, ?_⟩
  · unfold open_document
    rw [if_neg (by simp [hopen])]
    simp only [if_neg hne, List.getElem?_eq_getElem hlt]
  · unfold open_term_list
    rw [if_neg (by simp [hopen])]
    simp only [if_neg hne, List.getElem?_eq_getElem hlt]

theorem open_document_frame (dops : IRDatabaseOps δ σ R D T ρ) (s s' : MultiDatabase δ ρ)
    (did : Nat) (doc : D) (h : open_document dops s did = .ok (doc, s')) :
    s'.opened = s.opened ∧ s'.databases = s.databases := by
  unfold open_document at h
  split at h
  · cases h
  · simp only at h
    split at h
    · cases h
    · split at h
      · cases h
      · cases h; exact ⟨rfl, rfl⟩

theorem open_term_list_frame (dops : IRDatabaseOps δ σ R D T ρ) (s s' : MultiDatabase δ ρ)
    (did : Nat) (tl : MultiTermList δ T) (h : open_term_list dops s did = .ok (tl, s')) :
    s'.opened = s.opened ∧ s'.databases = s.databases := by
  unfold open_term_list at h
  split at h
  · cases h
  · simp only at h
    split at h
    · cases h
    · split at h
      · cases h
      · cases h; exact ⟨rfl, rfl⟩

/-- A reachable database that is opened has at least one sub-database: `open` asserts
`params.subdbs.size() > 0` and appends one sub-database per entry. -/
theorem reachable_opened (dops : IRDatabaseOps δ σ R D T ρ) (s : MultiDatabase δ ρ)
    (hr : Reachable dops s) : s.opened = true → 1 ≤ s.databases.length := by
  induction hr with
  | create => intro h; cases h
  | set_root s s' db _ h ih =>
    obtain ⟨h1, h2⟩ := set_root_ok dops s s' db h
    rw [h1, h2]; exact ih
  | open_ s s' params _ h _ => exact fun _ => (open_ok dops s s' params h).2
  | term_exists s s' tname b _ h ih =>
    obtain ⟨h1, h2⟩ := term_exists_ok dops s s' tname b h
    rw [h1, h2]; exact ih
  | open_post_list s s' tname rset pl _ h ih =>
    obtain ⟨h1, h2⟩ := open_post_list_frame dops s s' tname rset pl h
    rw [h1, h2]; exact ih
  | open_term_list s s' did tl _ h ih =>
    obtain ⟨h1, h2⟩ := open_term_list_frame dops s s' did tl h
    rw [h1, h2]; exact ih
  | open_document s s' did doc _ h ih =>
    obtain ⟨h1, h2⟩ := open_document_frame dops s s' did doc h
    rw [h1, h2]; exact ih

end MultiDatabase

/-- C8: on a `MultiDatabase` reachable from its constructor on which `open()` has
succeeded, for every global id `did ≥ 1`, `open_document(did)` and `open_term_list(did)`
both return, delegating to the sub-database at index `(did - 1) % M` with the local id
`(did - 1) / M + 1`, where `M = databases.size()`; `M ≥ 1`, so there is no division by
zero, and the index is a valid position of `databases`. -/
theorem open_document_and_term_list_delegate {δ σ R D T ρ : Type}
    (dops : IRDatabaseOps δ σ R D T ρ) (self : MultiDatabase δ ρ)
    (hr : MultiDatabase.Reachable dops self) (hopen : self.opened = true)
    (did : Nat) (hdid : 1 ≤ did) :
    1 ≤ self.databases.length ∧
    (did - 1) % self.databases.length < self.databases.length ∧
    ∃ db, self.databases[(did - 1) % self.databases.length]? = some db ∧
      MultiDatabase.open_document dops self did =
        .ok (dops.open_document db ((did - 1) / self.databases.length + 1),
             { self with used := true }) ∧
      MultiDatabase.open_term_list dops self did =
        .ok ({ tl := dops.open_term_list db ((did - 1) / self.databases.length + 1),
               termdb := db },
             { self with used := true }) := by
  have _ := hdid
  have hlen := MultiDatabase.reachable_opened dops self hr hopen
  exact ⟨hlen, MultiDatabase.open_by_did dops self did hopen hlen⟩

/-- Witness of C8: on the database opened over the three example sub-databases, the global
id `8` is looked up in sub-database `1` under the local id `3`. -/
theorem open_document_and_term_list_delegate_witness :
    ∃ s, MultiDatabase.open_ exampleDops MultiDatabase.create exampleParams = .ok s ∧
      s.opened = true ∧ s.databases.length = 3 ∧
      ∃ db, s.databases[1]? = some db ∧
        MultiDatabase.open_document exampleDops s 8 =
          .ok (exampleDops.open_document db 3, { s with used := true }) ∧
        MultiDatabase.open_term_list exampleDops s 8 =
          .ok ({ tl := exampleDops.open_term_list db 3, termdb := db },
               { s with used := true }) :=
  ⟨_, rfl, rfl, rfl,
    (open_document_and_term_list_delegate exampleDops _
      (MultiDatabase.Reachable.open_ _ _ exampleParams MultiDatabase.Reachable.create rfl)
      rfl 8 (by decide)).2.2⟩

/-! ## C10 -/

/-- C10: from every `HoneyCursor` state, `rewind()` (a total function: it cannot fail)
gives a state whose store position is the table's base offset, whose `current_key` and
`last_key` are empty, whose `is_at_end` is false (so `after_end()` is false), whose `index`
is `root` and whose `val_size` is `0`; `root` and `offset` are unchanged; and rewinding
twice gives the same state as rewinding once. -/
theorem rewind_resets_position (c : HoneyCursor) :
    c.rewind.store.get_pos = c.offset ∧
    c.rewind.current_key = "" ∧ c.rewind.last_key = "" ∧
    c.rewind.is_at_end = false ∧ c.rewind.after_end = false ∧
    c.rewind.index = c.root ∧ c.rewind.val_size = 0 ∧
    c.rewind.root = c.root ∧ c.rewind.offset = c.offset ∧
    c.rewind.rewind = c.rewind :=
  ⟨rfl, rfl, rfl, rfl, rfl, rfl, rfl, rfl, rfl, rfl⟩

/-! ## The merge over list-backed sub-postlists -/

theorem exactdoc_strictMono {d d' : Nat} (h : d < d') (hd : 1 ≤ d) (M off : Nat)
    (hM : 1 ≤ M) : exactdoc d M off < exactdoc d' M off := by
  unfold exactdoc
  have h1 : (d - 1) + 1 ≤ d' - 1 := by omega
  have h2 : ((d - 1) + 1) * M ≤ (d' - 1) * M := Nat.mul_le_mul_right _ h1
  rw [Nat.add_mul, Nat.one_mul] at h2
  omega

/-- The shape of a cursor that is on a posting: its current posting heads its list, its
`currdoc` is the remapped id of that posting, and all later postings remap to larger
ids. -/
theorem cursorOn_shape {B : Nat} {W : Type} [Zero W] (c : MultiPostListInternal (ListPostList B W))
    (h : CursorOn c) :
    ∃ p rest, c.pl = { started := true, postings := p :: rest } ∧
      c.currdoc = exactdoc p.1 c.multiplier c.offset ∧
      ListPostList.WellFormed rest ∧
      (∀ q ∈ rest, c.currdoc < exactdoc q.1 c.multiplier c.offset) ∧
      ∀ q ∈ p :: rest, exactdoc q.1 c.multiplier c.offset < B := by
  obtain ⟨⟨hst, hne, hwf⟩, hM, hcd, hfits⟩ := h
  obtain ⟨pl, cd, off, M⟩ := c
  obtain ⟨st, l⟩ := pl
  simp only at hst hne hwf hM hcd hfits ⊢
  subst hst
  cases l with
  | nil => exact absurd rfl hne
  | cons p rest =>
    refine ⟨p, rest, rfl, by simpa [ListPostList.ops, ListPostList.get_docid] using hcd,
      ListPostList.wellFormed_tail hwf, ?_, hfits⟩
    intro q hq
    have h1 := hwf.1
    simp only [List.map_cons, List.pairwise_cons] at h1
    have hlt : p.1 < q.1 := h1.1 q.1 (List.mem_map_of_mem _ hq)
    have hp : 1 ≤ p.1 := hwf.2 p (List.mem_cons_self _ _)
    have := exactdoc_strictMono hlt hp M off hM
    simp only [ListPostList.ops, ListPostList.get_docid] at hcd
    simp only [if_true] at hcd
    omega

theorem cursorOn_min {B : Nat} {W : Type} [Zero W] (c : MultiPostListInternal (ListPostList B W))
    (h : CursorOn c) :
    c.currdoc ∈ cursorPending c ∧ ∀ x ∈ cursorPending c, c.currdoc ≤ x := by
  obtain ⟨p, rest, hpl, hcd, _, hlt, _⟩ := cursorOn_shape c h
  unfold cursorPending
  rw [hpl]
  simp only [List.map_cons, List.mem_cons, List.mem_map]
  refine ⟨Or.inl hcd, ?_⟩
  rintro x (rfl | ⟨q, hq, rfl⟩)
  · exact Nat.le_of_eq hcd
  · exact Nat.le_of_lt (hlt q hq)

/-- The first loop of `next` on cursors that are on postings and not behind `cur`: the
ids still held afterwards are those held before that exceed `cur`, and every cursor left
is on a posting strictly beyond `cur`. -/
theorem advance_pending {B : Nat} {W : Type} [Zero W] (w : W) (cur : Nat)
    (l : List (MultiPostListInternal (ListPostList B W)))
    (hl : ∀ c ∈ l, CursorOn c ∧ cur ≤ c.currdoc) :
    pendingIds (MultiPostList.advance ListPostList.ops w cur l) =
      (pendingIds l).filter (fun x => decide (cur < x)) ∧
    ∀ c' ∈ MultiPostList.advance ListPostList.ops w cur l, CursorOn c' ∧ cur < c'.currdoc := by
  induction l with
  | nil => exact ⟨rfl, fun c' hc' => by simp [MultiPostList.advance] at hc'⟩
  | cons c rest ih =>
    obtain ⟨ih1, ih2⟩ := ih (fun c' hc' => hl c' (List.mem_cons_of_mem _ hc'))
    obtain ⟨hon, hge⟩ := hl c (List.mem_cons_self _ _)
    obtain ⟨p, ps, hpl, hcd, hwf, hlt, hfits⟩ := cursorOn_shape c hon
    obtain ⟨_, hM, _⟩ := hon
    have hkeep : ∀ q ∈ ps, decide (cur < exactdoc q.1 c.multiplier c.offset) = true := by
      intro q hq
      have := hlt q hq
      simp only [decide_eq_true_eq]
      omega
    have hfil : (ps.map fun q => exactdoc q.1 c.multiplier c.offset).filter
        (fun x => decide (cur < x)) = ps.map fun q => exactdoc q.1 c.multiplier c.offset := by
      rw [List.filter_eq_self]
      intro x hx
      obtain ⟨q, hq, rfl⟩ := List.mem_map.mp hx
      exact hkeep q hq
    unfold MultiPostList.advance
    by_cases hle : c.currdoc ≤ cur
    · have heq : c.currdoc = cur := Nat.le_antisymm hle hge
      have hnext : (ListPostList.ops : PostListOps (ListPostList B W) W).next w c.pl =
          { started := true, postings := ps } := by
        rw [hpl]; rfl
      have hpc : pendingIds (c :: rest) =
          exactdoc p.1 c.multiplier c.offset ::
            ((ps.map fun q => exactdoc q.1 c.multiplier c.offset) ++ pendingIds rest) := by
        simp only [pendingIds, List.flatMap_cons, cursorPending, hpl, List.map_cons,
          List.cons_append]
      have hdrop : decide (cur < exactdoc p.1 c.multiplier c.offset) = false := by
        simp only [decide_eq_false_iff_not]
        omega
      rw [if_pos hle, hnext, hpc, List.filter_cons_of_neg (by simp [hdrop]), List.filter_append,
        hfil]
      cases ps with
      | nil =>
        have hend : (ListPostList.ops : PostListOps (ListPostList B W) W).at_end
            { started := true, postings := [] } = true := rfl
        rw [if_pos hend]
        exact ⟨by simpa [pendingIds] using ih1, ih2⟩
      | cons q qs =>
        have hend : ¬ (ListPostList.ops : PostListOps (ListPostList B W) W).at_end
            { started := true, postings := q :: qs } = true := by
          simp [ListPostList.ops, ListPostList.at_end]
        rw [if_neg hend]
        refine ⟨?_, ?_⟩
        · simp only [pendingIds, List.flatMap_cons, cursorPending] at ih1 ⊢
          rw [ih1]
        · intro c' hc'
          rcases List.mem_cons.mp hc' with rfl | hc'
          · have hq := hfits q (List.mem_cons_of_mem _ (List.mem_cons_self _ _))
            have hcq : globaldoc B q.1 c.multiplier c.offset =
                exactdoc q.1 c.multiplier c.offset := globaldoc_of_fits _ _ _ _ hq
            refine ⟨⟨⟨rfl, by simp, hwf⟩, hM, ?_,
              fun r hr => hfits r (List.mem_cons_of_mem _ hr)⟩, ?_⟩
            · simpa [ListPostList.ops, ListPostList.get_docid] using hcq
            · have := hlt q (List.mem_cons_self _ _)
              show cur < globaldoc _ _ _ _
              simp only [ListPostList.ops, ListPostList.get_docid, if_true]
              rw [hcq]
              omega
          · exact ih2 c' hc'
    · rw [if_neg hle]
      have hgt : cur < c.currdoc := by omega
      refine ⟨?_, ?_⟩
      · have hself : (cursorPending c).filter (fun x => decide (cur < x)) = cursorPending c := by
          rw [List.filter_eq_self]
          intro x hx
          have := (cursorOn_min c (hl c (List.mem_cons_self _ _)).1).2 x hx
          simp only [decide_eq_true_eq]
          omega
        simp only [pendingIds, List.flatMap_cons, List.filter_append, hself] at ih1 ⊢
        rw [ih1]
      · intro c' hc'
        rcases List.mem_cons.mp hc' with rfl | hc'
        · exact ⟨(hl c' (List.mem_cons_self _ _)).1, hgt⟩
        · exact ih2 c' hc'

theorem merging_min {B : Nat} {W : Type} [Zero W] (m : MultiPostList (ListPostList B W)) (h : Merging m) :
    m.currdoc ∈ pendingIds m.postlists ∧ ∀ x ∈ pendingIds m.postlists, m.currdoc ≤ x := by
  obtain ⟨hall, ⟨c, hc, hceq⟩, _, _⟩ := h
  refine ⟨?_, ?_⟩
  · rw [← hceq]
    exact List.mem_flatMap.mpr ⟨c, hc, (cursorOn_min c (hall c hc).1).1⟩
  · intro x hx
    obtain ⟨c', hc', hx'⟩ := List.mem_flatMap.mp hx
    exact Nat.le_trans (hall c' hc').2 ((cursorOn_min c' (hall c' hc').1).2 x hx')

/-- A duplicate-free list is its least element followed by the elements beyond it, up to
order. -/
theorem perm_min_cons_filter (l : List Nat) (a : Nat) (hnd : l.Nodup) (ha : a ∈ l)
    (hmin : ∀ x ∈ l, a ≤ x) : (a :: l.filter (fun x => decide (a < x))).Perm l := by
  have hnd2 : (a :: l.filter (fun x => decide (a < x))).Nodup := by
    rw [List.nodup_cons]
    refine ⟨?_, hnd.filter _⟩
    intro hmem
    have := (List.mem_filter.mp hmem).2
    simp at this
  rw [List.perm_ext_iff_of_nodup hnd2 hnd]
  intro x
  simp only [List.mem_cons, List.mem_filter, decide_eq_true_eq]
  constructor
  · rintro (rfl | ⟨hx, _⟩)
    · exact ha
    · exact hx
  · intro hx
    have := hmin x hx
    by_cases hxa : x = a
    · exact Or.inl hxa
    · exact Or.inr ⟨hx, by omega⟩

/-- One `next` on a merge that is on a position: the ids still held are those beyond the
old position, and the merge is exhausted when none is left and on a position otherwise. -/
theorem merging_step {B : Nat} {W : Type} [Zero W] (w : W) (m : MultiPostList (ListPostList B W))
    (h : Merging m) :
    pendingIds (MultiPostList.next_body ListPostList.ops w m).postlists =
      (pendingIds m.postlists).filter (fun x => decide (m.currdoc < x)) ∧
    ((pendingIds (MultiPostList.next_body ListPostList.ops w m).postlists = [] ∧
        (MultiPostList.next_body ListPostList.ops w m).finished = true ∧
        (MultiPostList.next_body ListPostList.ops w m).postlists = []) ∨
      (pendingIds (MultiPostList.next_body ListPostList.ops w m).postlists ≠ [] ∧
        Merging (MultiPostList.next_body ListPostList.ops w m))) := by
  obtain ⟨hall, _, hnd, hfin⟩ := h
  obtain ⟨hpend, hon⟩ := advance_pending w m.currdoc m.postlists hall
  cases hadv : MultiPostList.advance ListPostList.ops w m.currdoc m.postlists with
  | nil =>
    have hnb : MultiPostList.next_body ListPostList.ops w m =
        { m with postlists := [], finished := true } := by
      simp only [MultiPostList.next_body, hadv]
    rw [hadv] at hpend
    rw [hnb]
    exact ⟨hpend, Or.inl ⟨rfl, rfl, rfl⟩⟩
  | cons i rest =>
    have hnb : MultiPostList.next_body ListPostList.ops w m =
        { m with postlists := i :: rest, currdoc := MultiPostList.newdoc_loop i.currdoc rest } := by
      simp only [MultiPostList.next_body, hadv]
    rw [hadv] at hpend hon
    rw [hnb]
    obtain ⟨hmin, hex⟩ := MultiPostList.newdoc_loop_spec i rest
    refine ⟨hpend, Or.inr ⟨?_, ⟨fun c hc => ⟨(hon c hc).1, hmin c hc⟩, ?_, ?_, hfin⟩⟩⟩
    · intro hnil
      have hmem := (cursorOn_min i (hon i (List.mem_cons_self _ _)).1).1
      have : i.currdoc ∈ pendingIds (i :: rest) :=
        List.mem_flatMap.mpr ⟨i, List.mem_cons_self _ _, hmem⟩
      simp only at hnil
      rw [hnil] at this
      cases this
    · obtain ⟨c, hc, hceq⟩ := hex
      exact ⟨c, hc, hceq.symm⟩
    · show (pendingIds (i :: rest)).Nodup
      rw [hpend]
      exact hnd.filter _

/-- The positions observed from a merge that is on a position are, together with that
position, the ids it holds in ascending order. -/
theorem merging_positions {B : Nat} {W : Type} [Zero W] (w : W) (n : Nat) :
    ∀ m : MultiPostList (ListPostList B W), Merging m → (pendingIds m.postlists).length ≤ n →
      (m.currdoc :: MultiPostList.positions ListPostList.ops w n m).Pairwise (· < ·) ∧
      (m.currdoc :: MultiPostList.positions ListPostList.ops w n m).Perm
        (pendingIds m.postlists) := by
  induction n with
  | zero =>
    intro m hm hlen
    have := (merging_min m hm).1
    have hnil : pendingIds m.postlists = [] := List.length_eq_zero.mp (by omega)
    rw [hnil] at this
    cases this
  | succ n ih =>
    intro m hm hlen
    obtain ⟨hmem, hmin⟩ := merging_min m hm
    have hperm := perm_min_cons_filter _ _ hm.2.2.1 hmem hmin
    obtain ⟨hpend, hcase⟩ := merging_step w m hm
    have hnext : MultiPostList.next ListPostList.ops w m =
        .ok (MultiPostList.next_body ListPostList.ops w m) := by
      simp only [MultiPostList.next, MultiPostList.at_end, hm.2.2.2, Bool.false_eq_true, if_false]
    have hpos : MultiPostList.positions ListPostList.ops w (n + 1) m =
        if (MultiPostList.next_body ListPostList.ops w m).at_end then []
        else (MultiPostList.next_body ListPostList.ops w m).currdoc ::
          MultiPostList.positions ListPostList.ops w n
            (MultiPostList.next_body ListPostList.ops w m) := by
      simp only [MultiPostList.positions, hnext]
    rw [hpos]
    rcases hcase with ⟨hnil, hfin, _⟩ | ⟨hne, hm'⟩
    · rw [hnil] at hpend
      rw [← hpend] at hperm
      simp only [MultiPostList.at_end, hfin, if_true]
      exact ⟨List.pairwise_singleton _ _, hperm⟩
    · have hlen' : (pendingIds (MultiPostList.next_body ListPostList.ops w m).postlists).length
          ≤ n := by
        have := hperm.length_eq
        rw [← hpend, List.length_cons] at this
        omega
      obtain ⟨ihs, ihp⟩ := ih _ hm' hlen'
      simp only [MultiPostList.at_end, hm'.2.2.2, Bool.false_eq_true, if_false]
      refine ⟨?_, ?_⟩
      · rw [List.pairwise_cons]
        refine ⟨?_, ihs⟩
        intro x hx
        have hx' := ihp.subset hx
        rw [hpend] at hx'
        simpa using (List.mem_filter.mp hx').2
      · rw [← hpend] at hperm
        exact (List.Perm.cons _ ihp).trans hperm

theorem length_remappedIds {W : Type} (M : Nat) (subs : List (List (Nat × W) × Nat)) :
    (remappedIds M subs).length = totalPostings subs := by
  induction subs with
  | nil => rfl
  | cons s rest ih =>
    simp only [remappedIds, totalPostings, List.flatMap_cons, List.length_append,
      List.length_map, List.map_cons, List.sum_cons] at ih ⊢
    rw [ih]

/-- Sub-lists with strictly increasing local ids `≥ 1` in pairwise distinct slots of
`[1, M]` never remap two postings to the same global id. -/
theorem nodup_remappedIds {W : Type} (M : Nat) (subs : List (List (Nat × W) × Nat))
    (hwf : ∀ s ∈ subs, ListPostList.WellFormed s.1)
    (hoff : ∀ s ∈ subs, 1 ≤ s.2 ∧ s.2 ≤ M)
    (hdist : (subs.map Prod.snd).Nodup) : (remappedIds M subs).Nodup := by
  unfold remappedIds
  rw [List.nodup_flatMap]
  refine ⟨fun s hs => ?_, ?_⟩
  · obtain ⟨hpw, hpos⟩ := hwf s hs
    obtain ⟨ho1, ho2⟩ := hoff s hs
    have hlt : (s.1.map fun p => exactdoc p.1 M s.2).Pairwise (· < ·) := by
      rw [List.pairwise_map] at hpw ⊢
      exact hpw.imp_of_mem fun {a b} ha _ hab =>
        exactdoc_strictMono hab (hpos a ha) M s.2 (by omega)
    exact hlt.imp (fun h => Nat.ne_of_lt h)
  · have hne : subs.Pairwise (fun a b => a.2 ≠ b.2) := by
      have h := hdist
      unfold List.Nodup at h
      rwa [List.pairwise_map] at h
    refine hne.imp_of_mem fun {a b} ha hb hab => ?_
    intro x hxa hxb
    obtain ⟨p, _, rfl⟩ := List.mem_map.mp hxa
    obtain ⟨q, _, hq⟩ := List.mem_map.mp hxb
    obtain ⟨ha1, ha2⟩ := hoff a ha
    obtain ⟨hb1, hb2⟩ := hoff b hb
    have e1 := dbnumber_exactdoc M p.1 (a.2 - 1) (by omega)
    have e2 := dbnumber_exactdoc M q.1 (b.2 - 1) (by omega)
    rw [Nat.sub_add_cancel ha1] at e1
    rw [Nat.sub_add_cancel hb1, hq, e1] at e2
    exact hab (by omega)

/-- The first loop of the first `next`: every fresh cursor is advanced, the ones over an
empty posting list are erased, and the others are on their first posting. -/
theorem advance_fresh {B : Nat} {W : Type} [Zero W] (w : W) (M : Nat)
    (subs : List (List (Nat × W) × Nat))
    (hwf : ∀ s ∈ subs, ListPostList.WellFormed s.1)
    (hoff : ∀ s ∈ subs, 1 ≤ s.2 ∧ s.2 ≤ M)
    (hfit : ∀ s ∈ subs, ∀ p ∈ s.1, exactdoc p.1 M s.2 < B) :
    pendingIds (MultiPostList.advance ListPostList.ops w 0 (listCursors B M subs)) =
      remappedIds M subs ∧
    ∀ c' ∈ MultiPostList.advance ListPostList.ops w 0 (listCursors B M subs), CursorOn c' := by
  induction subs with
  | nil => exact ⟨rfl, fun c' hc' => by simp [listCursors, MultiPostList.advance] at hc'⟩
  | cons s rest ih =>
    obtain ⟨ih1, ih2⟩ := ih (fun s' hs' => hwf s' (List.mem_cons_of_mem _ hs'))
      (fun s' hs' => hoff s' (List.mem_cons_of_mem _ hs'))
      (fun s' hs' => hfit s' (List.mem_cons_of_mem _ hs'))
    have hM : 1 ≤ M := by
      have := hoff s (List.mem_cons_self _ _)
      omega
    have hwfs := hwf s (List.mem_cons_self _ _)
    have hfits := hfit s (List.mem_cons_self _ _)
    obtain ⟨l, off⟩ := s
    have hcons : listCursors B M ((l, off) :: rest) =
        MultiPostListInternal.create (ListPostList.fresh_of l) off M :: listCursors B M rest := rfl
    have hrem : remappedIds M ((l, off) :: rest) =
        (l.map fun p => exactdoc p.1 M off) ++ remappedIds M rest := rfl
    rw [hcons, hrem]
    unfold MultiPostList.advance
    have hle : (MultiPostListInternal.create
        (ListPostList.fresh_of l : ListPostList B W) off M).currdoc ≤ 0 := Nat.le_refl 0
    rw [if_pos hle]
    cases l with
    | nil =>
      have hend : (ListPostList.ops : PostListOps (ListPostList B W) W).at_end
          ((ListPostList.ops : PostListOps (ListPostList B W) W).next w
            (MultiPostListInternal.create (ListPostList.fresh_of ([] : List (Nat × W))) off M).pl)
          = true := rfl
      rw [if_pos hend]
      exact ⟨by simpa using ih1, ih2⟩
    | cons p ps =>
      have hend : ¬ (ListPostList.ops : PostListOps (ListPostList B W) W).at_end
          ((ListPostList.ops : PostListOps (ListPostList B W) W).next w
            (MultiPostListInternal.create (ListPostList.fresh_of (p :: ps)) off M).pl) = true := by
        simp [ListPostList.ops, ListPostList.at_end, ListPostList.next,
          MultiPostListInternal.create, ListPostList.fresh_of]
      rw [if_neg hend]
      refine ⟨?_, ?_⟩
      · simp only [pendingIds, List.flatMap_cons] at ih1 ⊢
        rw [ih1]
        rfl
      · intro c' hc'
        rcases List.mem_cons.mp hc' with rfl | hc'
        · exact ⟨⟨rfl, by simp [ListPostList.ops, ListPostList.next,
            MultiPostListInternal.create, ListPostList.fresh_of], hwfs⟩, hM,
            globaldoc_of_fits _ _ _ _ (hfits p (List.mem_cons_self _ _)), hfits⟩
        · exact ih2 c' hc'

/-- The first `next` after construction: the merge then holds all remapped ids, and is
exhausted when there is none and on a position otherwise. -/
theorem first_next {B : Nat} {W : Type} [Zero W] (w : W) (M : Nat)
    (subs : List (List (Nat × W) × Nat))
    (hwf : ∀ s ∈ subs, ListPostList.WellFormed s.1)
    (hoff : ∀ s ∈ subs, 1 ≤ s.2 ∧ s.2 ≤ M)
    (hdist : (subs.map Prod.snd).Nodup)
    (hfit : ∀ s ∈ subs, ∀ p ∈ s.1, exactdoc p.1 M s.2 < B) :
    pendingIds (MultiPostList.next_body ListPostList.ops w
        (MultiPostList.create (listCursors B M subs))).postlists = remappedIds M subs ∧
    ((remappedIds M subs = [] ∧
        (MultiPostList.next_body ListPostList.ops w
          (MultiPostList.create (listCursors B M subs))).finished = true ∧
        (MultiPostList.next_body ListPostList.ops w
          (MultiPostList.create (listCursors B M subs))).postlists = []) ∨
      (remappedIds M subs ≠ [] ∧
        Merging (MultiPostList.next_body ListPostList.ops w
          (MultiPostList.create (listCursors B M subs))))) := by
  obtain ⟨hpend, hon⟩ := advance_fresh w M subs hwf hoff hfit
  have hnd := nodup_remappedIds M subs hwf hoff hdist
  cases hadv : MultiPostList.advance ListPostList.ops w 0 (listCursors B M subs) with
  | nil =>
    have hnb : MultiPostList.next_body ListPostList.ops w
        (MultiPostList.create (listCursors B M subs)) =
        { MultiPostList.create (listCursors B M subs) with postlists := [], finished := true } := by
      simp only [MultiPostList.next_body, MultiPostList.create, hadv]
    rw [hadv] at hpend
    rw [hnb]
    exact ⟨hpend, Or.inl ⟨hpend.symm, rfl, rfl⟩⟩
  | cons i rest =>
    have hnb : MultiPostList.next_body ListPostList.ops w
        (MultiPostList.create (listCursors B M subs)) =
        { MultiPostList.create (listCursors B M subs) with
          postlists := i :: rest, currdoc := MultiPostList.newdoc_loop i.currdoc rest } := by
      simp only [MultiPostList.next_body, MultiPostList.create, hadv]
    rw [hadv] at hpend hon
    rw [hnb]
    obtain ⟨hmin, c, hc, hceq⟩ := MultiPostList.newdoc_loop_spec i rest
    refine ⟨hpend, Or.inr ⟨?_, ⟨fun c hc => ⟨hon c hc, hmin c hc⟩, ⟨c, hc, hceq.symm⟩, ?_, rfl⟩⟩⟩
    · intro hnil
      have hmem := (cursorOn_min i (hon i (List.mem_cons_self _ _))).1
      have : i.currdoc ∈ pendingIds (i :: rest) :=
        List.mem_flatMap.mpr ⟨i, List.mem_cons_self _ _, hmem⟩
      rw [hpend, hnil] at this
      cases this
    · show (pendingIds (i :: rest)).Nodup
      rw [hpend]
      exact hnd

/-! ## C2 -/

/-- Counterexample to C2 as stated: with a 32-bit `docid`, one sub-list in slot `1` of
`3` holding the local ids `1` and `1431655766` (strictly increasing, `≥ 1`) is merged to
the positions `1, 0`: the second remapped id `4294967296` wraps to `0`.  The observed
sequence is neither ascending nor the list of the remapped ids. -/
theorem merge_positions_sorted_remapped_counterexample :
    (∀ s ∈ wrapSubs, ListPostList.WellFormed s.1) ∧
    (∀ s ∈ wrapSubs, 1 ≤ s.2 ∧ s.2 ≤ 3) ∧
    (wrapSubs.map Prod.snd).Nodup ∧
    remappedIds 3 wrapSubs = [1, 4294967296] ∧
    MultiPostList.positions ListPostList.ops 0 3
      (MultiPostList.create (listCursors docid32 3 wrapSubs)) = [1, 0] ∧
    ¬ (MultiPostList.positions ListPostList.ops 0 3
      (MultiPostList.create (listCursors docid32 3 wrapSubs))).Pairwise (· < ·) ∧
    ¬ (MultiPostList.positions ListPostList.ops 0 3
      (MultiPostList.create (listCursors docid32 3 wrapSubs))).Perm (remappedIds 3 wrapSubs) :=
  ⟨wrapSubs_wellFormed, by decide, by decide, by decide, by decide, by decide, by decide⟩

/-- C2 (amended): for a `MultiPostList` built over list-backed sub-postlists (no pruning)
with strictly increasing local ids `≥ 1`, pairwise distinct offsets in `[1, M]` and
multiplier `M`, all of whose remapped ids `(local_id - 1) * M + offset` fit in the docid
type (are below its modulus `B`), the values of `currdoc` observed after each
non-exhausting `next()` from construction (any number of calls beyond the total number of
postings) are strictly ascending and are, each once, exactly the remapped ids of all
sub-lists. -/
theorem merge_positions_sorted_remapped_within_range {B : Nat} {W : Type} [Zero W] (w_min : W)
    (M : Nat) (subs : List (List (Nat × W) × Nat))
    (hwf : ∀ s ∈ subs, ListPostList.WellFormed s.1)
    (hoff : ∀ s ∈ subs, 1 ≤ s.2 ∧ s.2 ≤ M)
    (hdist : (subs.map Prod.snd).Nodup)
    (hfit : ∀ s ∈ subs, ∀ p ∈ s.1, exactdoc p.1 M s.2 < B)
    (n : Nat) (hn : totalPostings subs + 1 ≤ n) :
    (MultiPostList.positions ListPostList.ops w_min n
      (MultiPostList.create (listCursors B M subs))).Pairwise (· < ·) ∧
    (MultiPostList.positions ListPostList.ops w_min n
      (MultiPostList.create (listCursors B M subs))).Perm (remappedIds M subs) := by
  obtain ⟨k, rfl⟩ : ∃ k, n = k + 1 := ⟨n - 1, by omega⟩
  obtain ⟨hpend, hcase⟩ := first_next w_min M subs hwf hoff hdist hfit
  have hpos : MultiPostList.positions ListPostList.ops w_min (k + 1)
      (MultiPostList.create (listCursors B M subs)) =
      if (MultiPostList.next_body ListPostList.ops w_min
          (MultiPostList.create (listCursors B M subs))).at_end then []
      else (MultiPostList.next_body ListPostList.ops w_min
          (MultiPostList.create (listCursors B M subs))).currdoc ::
        MultiPostList.positions ListPostList.ops w_min k
          (MultiPostList.next_body ListPostList.ops w_min
            (MultiPostList.create (listCursors B M subs))) := rfl
  rw [hpos]
  rcases hcase with ⟨hnil, hfin, _⟩ | ⟨_, hm⟩
  · simp only [MultiPostList.at_end, hfin, if_true, hnil]
    exact ⟨List.Pairwise.nil, List.Perm.refl _⟩
  · simp only [MultiPostList.at_end, hm.2.2.2, Bool.false_eq_true, if_false]
    have hlen : (pendingIds (MultiPostList.next_body ListPostList.ops w_min
        (MultiPostList.create (listCursors B M subs))).postlists).length ≤ k := by
      rw [hpend, length_remappedIds]
      omega
    have := merging_positions w_min k _ hm hlen
    rw [hpend] at this
    exact this

/-- Witness of C2: the example of the specification (local postings `{1,3,5}`, `{2,3}`,
`{1,4}`, multiplier `3`, 32-bit ids) gives the positions `1, 3, 5, 7, 8, 12, 13`. -/
theorem merge_positions_sorted_remapped_within_range_witness :
    MultiPostList.positions ListPostList.ops 0 8
      (MultiPostList.create (listCursors docid32 3 exampleSubs))
      = [1, 3, 5, 7, 8, 12, 13] ∧
    remappedIds 3 exampleSubs = [1, 7, 13, 5, 8, 3, 12] ∧
    (MultiPostList.positions ListPostList.ops 0 8
      (MultiPostList.create (listCursors docid32 3 exampleSubs))).Perm
        (remappedIds 3 exampleSubs) :=
  ⟨by decide, by decide,
    (merge_positions_sorted_remapped_within_range 0 3 exampleSubs exampleSubs_wellFormed
      (by decide) (by decide) (by decide) 8 (by decide)).2⟩

/-! ## C9 -/

namespace CursorHeap

end CursorHeap

/-- C12 as stated fails: the cursor made by the constructor and then sent `to_end()` is
reachable, has `current_key == ""` and has `is_at_end == true`; it is before-first and
after-last at once, so not every reachable cursor is in exactly one of the three states. -/
theorem exactly_one_state_counterexample :
    ¬ ∀ c, HoneyCursor.Reachable c →
      ExactlyOne c.before_first_spec c.on_entry c.after_last := by
  intro h
  have hc := h (HoneyCursor.create { bytes := [], pos := 0 } 0 0).to_end
    (HoneyCursor.Reachable.to_end _ (HoneyCursor.Reachable.create _ 0 0))
  have h1 : (HoneyCursor.create { bytes := [], pos := 0 } 0 0).to_end.before_first_spec := rfl
  have h3 : (HoneyCursor.create { bytes := [], pos := 0 } 0 0).to_end.after_last := rfl
  rcases hc with ⟨_, _, hn⟩ | ⟨hn, _, _⟩ | ⟨hn, _, _⟩
  · exact hn h3
  · exact hn h1
  · exact hn h1

theorem HoneyCursor.reachable_key_empty (c : HoneyCursor) (h : HoneyCursor.Reachable c) :
    c.current_key = "" := by
  induction h with
  | create => rfl
  | rewind c _ _ => rfl
  | to_end c _ ih => exact ih
  | clone c _ ih => exact ih
  | del c _ ih => exact ih

/-- C12, amended: every cursor reachable from construction through `rewind()`,
`to_end()`, `clone()` and `del()` is in exactly one of the states before-first
(`current_key == ""` and `is_at_end == false`), on-entry (non-empty `current_key` and
`is_at_end == false`) and after-last (`is_at_end == true`); these operations never leave
it on an entry, and `after_end()` tells the two remaining states apart. -/
theorem exactly_one_state_amended (c : HoneyCursor) (h : HoneyCursor.Reachable c) :
    ExactlyOne c.before_first c.on_entry c.after_last ∧ ¬ c.on_entry ∧
      (c.after_end = true ↔ c.after_last) ∧ (c.after_end = false ↔ c.before_first) := by
  have hk := HoneyCursor.reachable_key_empty c h
  have hne : ¬ c.on_entry := fun h => h.1 hk
  refine ⟨?_, hne, Iff.rfl, ?_⟩
  · unfold ExactlyOne HoneyCursor.before_first HoneyCursor.on_entry HoneyCursor.after_last
    cases hend : c.is_at_end <;> simp [hk]
  · unfold HoneyCursor.before_first HoneyCursor.after_end
    simp [hk]

/-- Witness of the amended C12 at the cursor of the counterexample: it is after-last and
in no other state. -/
theorem exactly_one_state_amended_witness :
    HoneyCursor.Reachable (HoneyCursor.create { bytes := [], pos := 0 } 0 0).to_end ∧
    ExactlyOne (HoneyCursor.create { bytes := [], pos := 0 } 0 0).to_end.before_first
      (HoneyCursor.create { bytes := [], pos := 0 } 0 0).to_end.on_entry
      (HoneyCursor.create { bytes := [], pos := 0 } 0 0).to_end.after_last :=
  ⟨HoneyCursor.Reachable.to_end _ (HoneyCursor.Reachable.create _ 0 0),
    (exactly_one_state_amended _
      (HoneyCursor.Reachable.to_end _ (HoneyCursor.Reachable.create _ 0 0))).1⟩

/-! ## C13 -/

/-- C13 as stated fails: `rewind()` on a cursor whose `current_tag` is `"tag"` empties
`current_key` and leaves `current_tag` equal to `"tag"`. -/
theorem rewind_clears_tag_counterexample :
    exampleCursor.rewind.current_key = "" ∧ exampleCursor.rewind.current_tag = "tag" ∧
      ¬ ∀ c : HoneyCursor, c.rewind.current_tag = "" ∧ c.rewind.current_key = "" := by
  refine ⟨rfl, rfl, fun h => ?_⟩
  have h1 := (h exampleCursor).1
  have h2 : exampleCursor.rewind.current_tag = "tag" := rfl
  rw [h2] at h1
  exact absurd h1 (by decide)

/-- C13, amended: for every cursor, `rewind()` empties `current_key` and leaves
`current_tag` as it was, so that the tag is empty at the dummy start position exactly when
it was empty before; a freshly constructed cursor has both empty. -/
theorem rewind_clears_key_keeps_tag (c : HoneyCursor) (store_ : BufferedFile)
    (root_ offset_ : Int) :
    c.rewind.current_key = "" ∧ c.rewind.current_tag = c.current_tag ∧
    (c.rewind.current_tag = "" ↔ c.current_tag = "") ∧
    (HoneyCursor.create store_ root_ offset_).current_key = "" ∧
    (HoneyCursor.create store_ root_ offset_).current_tag = "" :=
  ⟨rfl, rfl, Iff.rfl, rfl, rfl⟩

/-! ## C14 -/

namespace MultiPostList

variable {σ W : Type}

theorem next_body_freq (ops : PostListOps σ W) (w : W) (m : MultiPostList σ) :
    (next_body ops w m).freq_initialised = m.freq_initialised := by
  unfold next_body
  split <;> rfl

theorem next_freq (ops : PostListOps σ W) (w : W) (m m' : MultiPostList σ)
    (h : next ops w m = .ok m') : m'.freq_initialised = m.freq_initialised := by
  unfold next at h
  split at h
  · cases h
  · cases h; exact next_body_freq ops w m

theorem skip_to_loop_freq (ops : PostListOps σ W) (did : Nat) (w : W) (fuel : Nat) :
    ∀ (m m' : MultiPostList σ), skip_to_loop ops did w fuel m = .ok m' →
      m'.freq_initialised = m.freq_initialised := by
  induction fuel with
  | zero =>
    intro m m' h
    unfold skip_to_loop at h
    split at h
    · simp at h
    · cases h; rfl
  | succ n ih =>
    intro m m' h
    unfold skip_to_loop at h
    split at h
    · cases hn : next ops w m with
      | error e => rw [hn] at h; cases h
      | ok m1 =>
        rw [hn] at h
        simp only at h
        rw [ih m1 m' h, next_freq ops w m m1 hn]
    · cases h; rfl

theorem skip_to_freq (ops : PostListOps σ W) (fuel did : Nat) (w : W) (m m' : MultiPostList σ)
    (h : skip_to ops fuel did w m = .ok m') : m'.freq_initialised = m.freq_initialised := by
  unfold skip_to at h
  split at h
  · cases h
  · exact skip_to_loop_freq ops did w fuel m m' h

theorem reachable_freq (ops : PostListOps σ W) (fresh : σ → Prop) (m : MultiPostList σ)
    (hr : Reachable ops fresh m) : m.freq_initialised = false := by
  induction hr with
  | create pls _ => rfl
  | next w m m' _ hn ih => rw [next_freq ops w m m' hn]; exact ih
  | skip_to fuel did w m m' _ hn ih => rw [skip_to_freq ops fuel did w m m' hn]; exact ih

end MultiPostList

/-- C14 as stated fails: on the example of the specification the first `next()` leaves
the merge positioned on global id `1`, and `get_weight()` still fails its assertion. -/
theorem get_weight_after_next_counterexample :
    MultiPostList.get_weight ListPostList.ops exampleMerge = .error Fault.assertion ∧
    ∃ m', MultiPostList.next ListPostList.ops 0 exampleMerge = .ok m' ∧
      m'.at_end = false ∧ m'.currdoc = 1 ∧
      MultiPostList.get_weight ListPostList.ops m' = .error Fault.assertion :=
  ⟨rfl, _, rfl, rfl, by decide, rfl⟩

/-- C14, amended: `get_weight()` is gated by the member `freq_initialised`, not by the
position.  It returns the weight if and only if `freq_initialised` is set; the
constructor clears the flag and neither `next()` nor `skip_to()` sets it, so in every
state reachable from construction by `next()` / `skip_to()` calls, positioned or not,
`get_weight()` fails its assertion. -/
theorem get_weight_gated_by_freq_initialised {σ W : Type} [Zero W] [Add W]
    (ops : PostListOps σ W) (fresh : σ → Prop) (m : MultiPostList σ)
    (hr : MultiPostList.Reachable ops fresh m) :
    m.freq_initialised = false ∧
    MultiPostList.get_weight ops m = .error Fault.assertion ∧
    (∀ m0 : MultiPostList σ,
      (∃ wt, MultiPostList.get_weight ops m0 = .ok wt) ↔ m0.freq_initialised = true) := by
  have hf := MultiPostList.reachable_freq ops fresh m hr
  refine ⟨hf, ?_, fun m0 => ?_⟩
  · unfold MultiPostList.get_weight
    rw [hf]
    rfl
  · unfold MultiPostList.get_weight
    cases m0.freq_initialised <;> simp

/-- Witness of the amended C14: the merge over the example of the specification after two
calls of `next()` is on position `3`, and `get_weight()` fails on it. -/
theorem get_weight_gated_by_freq_initialised_witness :
    (MultiPostList.next_body ListPostList.ops 0
      (MultiPostList.next_body ListPostList.ops 0 exampleMerge)).currdoc = 3 ∧
    MultiPostList.get_weight ListPostList.ops
      (MultiPostList.next_body ListPostList.ops 0
        (MultiPostList.next_body ListPostList.ops 0 exampleMerge)) = .error Fault.assertion :=
  ⟨by decide,
    (get_weight_gated_by_freq_initialised ListPostList.ops ListPostList.Fresh _
      (MultiPostList.Reachable.next 0 _ _
        (MultiPostList.Reachable.next 0 _ _
          (MultiPostList.Reachable.create _
            (listCursors_fresh 3 exampleSubs exampleSubs_wellFormed)) rfl) rfl)).2.1⟩

/-! ## C16 -/

namespace MultiPostList

variable {σ W : Type}

theorem next_body_postlists (ops : PostListOps σ W) (w : W) (m : MultiPostList σ) :
    (next_body ops w m).postlists = advance ops w m.currdoc m.postlists := by
  unfold next_body
  split
  · rename_i h; rw [h]
  · rename_i i rest h; rw [h]

theorem next_postlists (ops : PostListOps σ W) (w : W) (m m' : MultiPostList σ)
    (h : next ops w m = .ok m') : m'.postlists = advance ops w m.currdoc m.postlists := by
  unfold next at h
  split at h
  · cases h
  · cases h; exact next_body_postlists ops w m

/-- On cursors none of which is behind `cur`, the test `cur >= (*i).currdoc` of the code is
the test for equality, and the first loop of `next` is the step of the specification. -/
theorem advance_eq_advance_tied (ops : PostListOps σ W) (w : W) (cur : Nat)
    (l : List (MultiPostListInternal σ)) (h : ∀ c ∈ l, cur ≤ c.currdoc) :
    advance ops w cur l = advance_tied ops w cur l := by
  induction l with
  | nil => rfl
  | cons i rest ih =>
    have ih' := ih (fun c hc => h c (List.mem_cons_of_mem _ hc))
    have hi := h i (List.mem_cons_self _ _)
    unfold advance advance_tied
    by_cases hle : i.currdoc ≤ cur
    · have heq : i.currdoc = cur := Nat.le_antisymm hle hi
      rw [if_pos hle, if_pos heq, ih']
    · have hne : ¬ i.currdoc = cur := fun e => hle (Nat.le_of_eq e)
      rw [if_neg hle, if_neg hne, ih']

theorem mem_advance_of_ahead (ops : PostListOps σ W) (w : W) (cur : Nat)
    (l : List (MultiPostListInternal σ)) (c : MultiPostListInternal σ) (hc : c ∈ l)
    (hlt : cur < c.currdoc) : c ∈ advance ops w cur l := by
  induction l with
  | nil => cases hc
  | cons i rest ih =>
    unfold advance
    rcases List.mem_cons.mp hc with rfl | hc
    · rw [if_neg (by omega)]
      exact List.mem_cons_self _ _
    · have := ih hc
      split
      · split
        · exact this
        · exact List.mem_cons_of_mem _ this
      · exact List.mem_cons_of_mem _ this

end MultiPostList

/-- C16: `next()` advances exactly the cursors tied with the old position.  For
sub-postlists yielding strictly increasing local ids `≥ 1`, in every state reachable from
construction every cursor has `currdoc ≥` the merge's `currdoc`, so the code's test
`currdoc >= cursor.currdoc` holds precisely of the cursors whose `currdoc` equals the
merge's; the cursor list after `next()` is the one the specification's step gives
(`advance_tied`): each tied cursor is advanced once, erased if then exhausted, and every
other cursor is kept with its sub-postlist and `currdoc` untouched. -/
theorem next_advances_exactly_tied_cursors {σ W : Type} (ops : PostListOps σ W)
    (fresh positioned : σ → Prop) (hops : ops.Increasing fresh positioned)
    (m : MultiPostList σ) (hr : MultiPostList.Reachable ops fresh m) :
    (∀ c ∈ m.postlists, m.currdoc ≤ c.currdoc) ∧
    (∀ c ∈ m.postlists, (c.currdoc ≤ m.currdoc ↔ c.currdoc = m.currdoc)) ∧
    (∀ w_min m', MultiPostList.next ops w_min m = .ok m' →
      m'.postlists = MultiPostList.advance_tied ops w_min m.currdoc m.postlists ∧
      (∀ c ∈ m.postlists, c.currdoc ≠ m.currdoc → c ∈ m'.postlists) ∧
      (∀ c' ∈ m'.postlists,
        (c' ∈ m.postlists ∧ c'.currdoc ≠ m.currdoc) ∨
        (∃ c ∈ m.postlists, c.currdoc = m.currdoc ∧
          ops.at_end (ops.next w_min c.pl) = false ∧
          c' = { c with
                 pl := ops.next w_min c.pl
                 currdoc :=
                   (globaldoc ops.docid_modulus (ops.get_docid (ops.next w_min c.pl))
                     c.multiplier c.offset) }))) := by
  have hinv := MultiPostList.reachable_inv ops hops m hr
  have hge : ∀ c ∈ m.postlists, m.currdoc ≤ c.currdoc := fun c hc => (hinv c hc).1
  refine ⟨hge, fun c hc => ⟨fun h => Nat.le_antisymm h (hge c hc), fun h => Nat.le_of_eq h⟩, ?_⟩
  intro w m' hn
  have hpl := MultiPostList.next_postlists ops w m m' hn
  refine ⟨?_, ?_, ?_⟩
  · rw [hpl]
    exact MultiPostList.advance_eq_advance_tied ops w _ _ hge
  · intro c hc hne
    rw [hpl]
    have := hge c hc
    exact MultiPostList.mem_advance_of_ahead ops w _ _ c hc (by omega)
  · intro c' hc'
    rw [hpl] at hc'
    rcases MultiPostList.mem_advance ops w _ _ c' hc' with ⟨h1, h2⟩ | ⟨c, hc, hle, hend, rfl⟩
    · exact Or.inl ⟨h1, by omega⟩
    · exact Or.inr ⟨c, hc, Nat.le_antisymm hle (hge c hc), hend, rfl⟩

/-- Witness of C16 on the example of the specification: in the state after the first
`next` (position `1`) only the first cursor is tied; the second `next` advances it to
global id `7` and keeps the cursors at `5` and `3`. -/
theorem next_advances_exactly_tied_cursors_witness :
    (MultiPostList.next_body ListPostList.ops 0 exampleMerge).postlists.map (·.currdoc)
      = [1, 5, 3] ∧
    (MultiPostList.next_body ListPostList.ops 0
      (MultiPostList.next_body ListPostList.ops 0 exampleMerge)).postlists.map (·.currdoc)
      = [7, 5, 3] ∧
    (MultiPostList.next_body ListPostList.ops 0
      (MultiPostList.next_body ListPostList.ops 0 exampleMerge)).postlists =
      MultiPostList.advance_tied ListPostList.ops 0
        (MultiPostList.next_body ListPostList.ops 0 exampleMerge).currdoc
        (MultiPostList.next_body ListPostList.ops 0 exampleMerge).postlists :=
  ⟨by decide, by decide,
    ((next_advances_exactly_tied_cursors ListPostList.ops ListPostList.Fresh
      ListPostList.Positioned ListPostList.increasing _
      (MultiPostList.Reachable.next 0 _ _
        (MultiPostList.Reachable.create _
          (listCursors_fresh 3 exampleSubs exampleSubs_wellFormed)) rfl)).2.2 0 _ rfl).1⟩

/-! ## C17 -/

theorem PostListOps.Increasing.not_at_end {σ W : Type} {ops : PostListOps σ W}
    {fresh positioned : σ → Prop} (hops : ops.Increasing fresh positioned) :
    ops.Increasing fresh (fun s => positioned s ∧ ops.at_end s = false) where
  first := fun w s hf hend => ⟨hops.first w s hf hend, hend⟩
  step := fun w s hp hend => ⟨⟨(hops.step w s hp.1 hend).1, hend⟩, (hops.step w s hp.1 hend).2⟩
  docid_pos := fun s hp => hops.docid_pos s hp.1

/-- C17: per-cursor id consistency.  For sub-postlists yielding strictly increasing local
ids `≥ 1`, after every call of `next()` on a state reachable from construction, every
cursor still in the list (advanced by this call or not) has
`currdoc == (pl->get_docid() - 1) * multiplier + offset`, the right-hand side being the
value of that expression in the docid type (`globaldoc`), which is the exact value
`(pl->get_docid() - 1) * multiplier + offset` whenever that fits in the type; its
sub-postlist is on a posting, and no sub-postlist that is at its end remains in the
list. -/
theorem cursor_ids_consistent_after_next {σ W : Type} (ops : PostListOps σ W)
    (fresh positioned : σ → Prop) (hops : ops.Increasing fresh positioned)
    (m : MultiPostList σ) (hr : MultiPostList.Reachable ops fresh m)
    (w_min : W) (m' : MultiPostList σ) (hn : MultiPostList.next ops w_min m = .ok m') :
    ∀ c ∈ m'.postlists,
      c.currdoc = globaldoc ops.docid_modulus (ops.get_docid c.pl) c.multiplier c.offset ∧
      ((ops.get_docid c.pl - 1) * c.multiplier + c.offset < ops.docid_modulus →
        c.currdoc = (ops.get_docid c.pl - 1) * c.multiplier + c.offset) ∧
      ops.at_end c.pl = false ∧ positioned c.pl := by
  have hinv := MultiPostList.reachable_inv ops hops.not_at_end m hr
  have key : ∀ c ∈ m'.postlists,
      c.currdoc = globaldoc ops.docid_modulus (ops.get_docid c.pl) c.multiplier c.offset ∧
      ops.at_end c.pl = false ∧ positioned c.pl := by
    intro c' hc'
    rw [MultiPostList.next_postlists ops w_min m m' hn] at hc'
    rcases MultiPostList.mem_advance ops w_min _ _ c' hc' with
      ⟨h1, h2⟩ | ⟨c, hc, hle, hend, rfl⟩
    · rcases (hinv c' h1).2 with ⟨_, h0⟩ | ⟨⟨hp, he⟩, hcd⟩
      · omega
      · exact ⟨hcd, he, hp⟩
    · refine ⟨rfl, hend, ?_⟩
      rcases (hinv c hc).2 with ⟨hf, _⟩ | ⟨⟨hp, _⟩, _⟩
      · exact hops.first w_min _ hf hend
      · exact (hops.step w_min _ hp hend).1
  intro c hc
  obtain ⟨h1, h2, h3⟩ := key c hc
  exact ⟨h1, fun hfit => h1.trans (globaldoc_of_fits _ _ _ _ hfit), h2, h3⟩

/-- Witness of C17 on the example of the specification: after the second `next` the
cursors are on the local ids `3`, `2`, `1` with offsets `1`, `2`, `3`, and their `currdoc`
values `7`, `5`, `3` are the remapped ids. -/
theorem cursor_ids_consistent_after_next_witness :
    (MultiPostList.next_body ListPostList.ops 0
      (MultiPostList.next_body ListPostList.ops 0 exampleMerge)).postlists.map
        (fun c => (ListPostList.get_docid c.pl, c.offset, c.currdoc))
      = [(3, 1, 7), (2, 2, 5), (1, 3, 3)] ∧
    ∀ c ∈ (MultiPostList.next_body ListPostList.ops 0
        (MultiPostList.next_body ListPostList.ops 0 exampleMerge)).postlists,
      c.currdoc = globaldoc docid32 (ListPostList.get_docid c.pl) c.multiplier c.offset ∧
      ((ListPostList.get_docid c.pl - 1) * c.multiplier + c.offset < docid32 →
        c.currdoc = (ListPostList.get_docid c.pl - 1) * c.multiplier + c.offset) ∧
      ListPostList.at_end c.pl = false ∧ ListPostList.Positioned c.pl :=
  ⟨by decide,
    cursor_ids_consistent_after_next ListPostList.ops ListPostList.Fresh
      ListPostList.Positioned ListPostList.increasing _
      (MultiPostList.Reachable.next 0 _ _
        (MultiPostList.Reachable.create _
          (listCursors_fresh 3 exampleSubs exampleSubs_wellFormed)) rfl) 0 _ rfl⟩

/-! ## C19 -/

namespace MultiPostList

variable {σ W : Type}

end MultiPostList

namespace MultiDatabase

variable {δ σ R D T ρ : Type}

/-- The three ways in which `term_exists` returns: from the cache, from the sub-databases
with the term then cached, and with a negative answer that is not cached. -/
theorem term_exists_cases (dops : IRDatabaseOps δ σ R D T ρ) (s s' : MultiDatabase δ ρ)
    (tname : String) (b : Bool) (h : term_exists dops s tname = .ok (b, s')) :
    s.opened = true ∧ s'.databases = s.databases ∧ s'.used = true ∧
    ((tname ∈ s.terms ∧ b = true ∧ s'.terms = s.terms) ∨
     (tname ∉ s.terms ∧ term_exists_loop dops tname s.databases = true ∧ b = true ∧
       s'.terms = tname :: s.terms) ∨
     (tname ∉ s.terms ∧ term_exists_loop dops tname s.databases = false ∧ b = false ∧
       s'.terms = s.terms)) := by
  unfold term_exists at h
  split at h
  · cases h
  · rename_i hop
    have hopen : s.opened = true := by simpa using hop
    simp only at h
    split at h
    · rename_i hmem
      cases h
      exact ⟨hopen, rfl, rfl, Or.inl ⟨hmem, rfl, rfl⟩⟩
    · rename_i hmem
      split at h
      · rename_i hl
        cases h
        exact ⟨hopen, rfl, rfl, Or.inr (Or.inl ⟨hmem, hl, rfl, rfl⟩)⟩
      · rename_i hl
        cases h
        exact ⟨hopen, rfl, rfl, Or.inr (Or.inr ⟨hmem, by simpa using hl, rfl, rfl⟩)⟩

theorem open_post_list_term_exists (dops : IRDatabaseOps δ σ R D T ρ)
    (s s' : MultiDatabase δ ρ) (tname : String) (rset : R) (pl : MultiPostList σ)
    (h : open_post_list dops s tname rset = .ok (pl, s')) :
    ∃ b, term_exists dops { s with used := true } tname = .ok (b, s') := by
  unfold open_post_list at h
  split at h
  · cases h
  · split at h
    · cases h
    · rename_i found self2 hte
      split at h
      · cases h
      · split at h
        · cases h
        · cases h
          exact ⟨found, hte⟩

theorem reads_fail_unopened (dops : IRDatabaseOps δ σ R D T ρ) (s : MultiDatabase δ ρ)
    (h : s.opened = false) (tname : String) (rset : R) (did : Nat) :
    term_exists dops s tname = .error Fault.assertion ∧
    open_post_list dops s tname rset = .error Fault.assertion ∧
    open_term_list dops s did = .error Fault.assertion ∧
    open_document dops s did = .error Fault.assertion := by
  refine ⟨?_, ?_, ?_, ?_⟩
  · unfold term_exists; rw [if_pos (by simp [h])]
  · unfold open_post_list; rw [if_pos (by simp [h])]
  · unfold open_term_list; rw [if_pos (by simp [h])]
  · unfold open_document; rw [if_pos (by simp [h])]

theorem open_fails_used (dops : IRDatabaseOps δ σ R D T ρ) (s : MultiDatabase δ ρ)
    (h : s.used = true) (params : DatabaseBuilderParams ρ) :
    open_ dops s params = .error Fault.assertion := by
  unfold open_; rw [if_pos h]

theorem set_root_fails_used (dops : IRDatabaseOps δ σ R D T ρ) (s : MultiDatabase δ ρ)
    (h : s.used = true) (db : ρ) : set_root dops s db = .error Fault.assertion := by
  unfold set_root; rw [if_pos h]

theorem open_post_list_used (dops : IRDatabaseOps δ σ R D T ρ) (s s' : MultiDatabase δ ρ)
    (tname : String) (rset : R) (pl : MultiPostList σ)
    (h : open_post_list dops s tname rset = .ok (pl, s')) : s'.used = true := by
  obtain ⟨b, hb⟩ := open_post_list_term_exists dops s s' tname rset pl h
  exact (term_exists_cases dops _ s' tname b hb).2.2.1

theorem open_term_list_used (dops : IRDatabaseOps δ σ R D T ρ) (s s' : MultiDatabase δ ρ)
    (did : Nat) (tl : MultiTermList δ T) (h : open_term_list dops s did = .ok (tl, s')) :
    s'.used = true ∧ s'.terms = s.terms := by
  unfold open_term_list at h
  split at h
  · cases h
  · simp only at h
    split at h
    · cases h
    · split at h
      · cases h
      · cases h; exact ⟨rfl, rfl⟩

theorem open_document_used (dops : IRDatabaseOps δ σ R D T ρ) (s s' : MultiDatabase δ ρ)
    (did : Nat) (doc : D) (h : open_document dops s did = .ok (doc, s')) :
    s'.used = true ∧ s'.terms = s.terms := by
  unfold open_document at h
  split at h
  · cases h
  · simp only at h
    split at h
    · cases h
    · split at h
      · cases h
      · cases h; exact ⟨rfl, rfl⟩

theorem neverOpened_opened (dops : IRDatabaseOps δ σ R D T ρ) (s : MultiDatabase δ ρ)
    (h : NeverOpened dops s) : s.opened = false := by
  induction h with
  | create => rfl
  | set_root s s' db _ h ih => rw [(set_root_ok dops s s' db h).1]; exact ih
  | term_exists s s' tname b _ h ih => rw [(term_exists_ok dops s s' tname b h).1]; exact ih
  | open_post_list s s' tname rset pl _ h ih =>
    rw [(open_post_list_frame dops s s' tname rset pl h).1]; exact ih
  | open_term_list s s' did tl _ h ih =>
    rw [(open_term_list_frame dops s s' did tl h).1]; exact ih
  | open_document s s' did doc _ h ih =>
    rw [(open_document_frame dops s s' did doc h).1]; exact ih

/-- Once `used` is set it stays set, and the vector of sub-databases no longer changes. -/
theorem later_used (dops : IRDatabaseOps δ σ R D T ρ) (s s' : MultiDatabase δ ρ)
    (hu : s.used = true) (h : Later dops s s') :
    s'.used = true ∧ s'.databases = s.databases := by
  induction h with
  | refl => exact ⟨hu, rfl⟩
  | set_root s' s'' db _ h ih =>
    rw [set_root_fails_used dops s' ih.1 db] at h
    cases h
  | open_ s' s'' params _ h ih =>
    rw [open_fails_used dops s' ih.1 params] at h
    cases h
  | term_exists s' s'' tname b _ h ih =>
    obtain ⟨_, h2, h3, _⟩ := term_exists_cases dops s' s'' tname b h
    exact ⟨h3, h2.trans ih.2⟩
  | open_post_list s' s'' tname rset pl _ h ih =>
    exact ⟨open_post_list_used dops s' s'' tname rset pl h,
      (open_post_list_frame dops s' s'' tname rset pl h).2.trans ih.2⟩
  | open_term_list s' s'' did tl _ h ih =>
    exact ⟨(open_term_list_used dops s' s'' did tl h).1,
      (open_term_list_frame dops s' s'' did tl h).2.trans ih.2⟩
  | open_document s' s'' did doc _ h ih =>
    exact ⟨(open_document_used dops s' s'' did doc h).1,
      (open_document_frame dops s' s'' did doc h).2.trans ih.2⟩

/-- A read operation returns only on a database that has been opened. -/
theorem readReturns_opened (dops : IRDatabaseOps δ σ R D T ρ) (s s1 : MultiDatabase δ ρ)
    (h : ReadReturns dops s s1) : s.opened = true := by
  rcases h with ⟨tname, b, h⟩ | ⟨tname, rset, pl, h⟩ | ⟨did, tl, h⟩ | ⟨did, doc, h⟩
  · exact (term_exists_cases dops s s1 tname b h).1
  · exact opened_of_open_post_list dops s tname rset pl s1 h
  · by_contra hne
    have hs : s.opened = false := by simpa using hne
    unfold open_term_list at h
    rw [if_pos (by simp [hs])] at h
    cases h
  · by_contra hne
    have hs : s.opened = false := by simpa using hne
    unfold open_document at h
    rw [if_pos (by simp [hs])] at h
    cases h

/-- Once `used` is set, `opened` no longer changes. -/
theorem later_opened (dops : IRDatabaseOps δ σ R D T ρ) (s s' : MultiDatabase δ ρ)
    (hu : s.used = true) (h : Later dops s s') : s'.opened = s.opened := by
  induction h with
  | refl => rfl
  | set_root s' s'' db hl h _ =>
    rw [set_root_fails_used dops s' (later_used dops s s' hu hl).1 db] at h
    cases h
  | open_ s' s'' params hl h _ =>
    rw [open_fails_used dops s' (later_used dops s s' hu hl).1 params] at h
    cases h
  | term_exists s' s'' tname b _ h ih =>
    exact (term_exists_ok dops s' s'' tname b h).1.trans ih
  | open_post_list s' s'' tname rset pl _ h ih =>
    exact (open_post_list_frame dops s' s'' tname rset pl h).1.trans ih
  | open_term_list s' s'' did tl _ h ih =>
    exact (open_term_list_frame dops s' s'' did tl h).1.trans ih
  | open_document s' s'' did doc _ h ih =>
    exact (open_document_frame dops s' s'' did doc h).1.trans ih

end MultiDatabase

/-- C18: open-before-use and no mutation after first use.  In every state `s` of a
`MultiDatabase` (reachable or not):
(1) while `opened` is unset each read operation (`term_exists`, `open_post_list`,
`open_term_list`, `open_document`) fails its assertion, and `opened` is unset in every
state reached from the constructor without a completed `open()`;
(2) every read operation that returns leaves `used` set and leaves `databases` and
`opened` as they were;
(3) once `used` is set, in every later state `used` is still set, every `open()` and
`set_root()` call fails its assertion, and `databases` (hence `databases.size()`, the
router multiplier) is what it was;
(4) consequently, after any read operation that returns from `s`, in every later state
`databases` is what it was in `s` when that read ran, so every later read operation works
with the same `databases.size()` as that one, and every `open()` and `set_root()` call
fails. -/
theorem open_before_use_no_mutation_after {δ σ R D T ρ : Type}
    (dops : IRDatabaseOps δ σ R D T ρ) (s : MultiDatabase δ ρ) :
    (s.opened = false → ∀ (tname : String) (rset : R) (did : Nat),
      MultiDatabase.term_exists dops s tname = .error Fault.assertion ∧
      MultiDatabase.open_post_list dops s tname rset = .error Fault.assertion ∧
      MultiDatabase.open_term_list dops s did = .error Fault.assertion ∧
      MultiDatabase.open_document dops s did = .error Fault.assertion) ∧
    (MultiDatabase.NeverOpened dops s → s.opened = false) ∧
    ((∀ tname b s', MultiDatabase.term_exists dops s tname = .ok (b, s') →
       s'.used = true ∧ s'.databases = s.databases ∧ s'.opened = s.opened) ∧
     (∀ tname rset pl s', MultiDatabase.open_post_list dops s tname rset = .ok (pl, s') →
       s'.used = true ∧ s'.databases = s.databases ∧ s'.opened = s.opened) ∧
     (∀ did tl s', MultiDatabase.open_term_list dops s did = .ok (tl, s') →
       s'.used = true ∧ s'.databases = s.databases ∧ s'.opened = s.opened) ∧
     (∀ did doc s', MultiDatabase.open_document dops s did = .ok (doc, s') →
       s'.used = true ∧ s'.databases = s.databases ∧ s'.opened = s.opened)) ∧
    (s.used = true → ∀ s', MultiDatabase.Later dops s s' →
      s'.used = true ∧ s'.databases = s.databases ∧
      s'.databases.length = s.databases.length ∧
      (∀ params, MultiDatabase.open_ dops s' params = .error Fault.assertion) ∧
      (∀ db, MultiDatabase.set_root dops s' db = .error Fault.assertion)) ∧
    (∀ s1, MultiDatabase.ReadReturns dops s s1 → ∀ s2, MultiDatabase.Later dops s1 s2 →
      s2.used = true ∧ s2.databases = s.databases ∧
      s2.databases.length = s.databases.length ∧ s2.opened = true ∧
      (∀ params, MultiDatabase.open_ dops s2 params = .error Fault.assertion) ∧
      (∀ db, MultiDatabase.set_root dops s2 db = .error Fault.assertion)) := by
  have hte : ∀ tname b s', MultiDatabase.term_exists dops s tname = .ok (b, s') →
      s'.used = true ∧ s'.databases = s.databases ∧ s'.opened = s.opened :=
    fun tname b s' h => ⟨(MultiDatabase.term_exists_cases dops s s' tname b h).2.2.1,
      (MultiDatabase.term_exists_ok dops s s' tname b h).2,
      (MultiDatabase.term_exists_ok dops s s' tname b h).1⟩
  have hpl : ∀ tname rset pl s',
      MultiDatabase.open_post_list dops s tname rset = .ok (pl, s') →
      s'.used = true ∧ s'.databases = s.databases ∧ s'.opened = s.opened :=
    fun tname rset pl s' h => ⟨MultiDatabase.open_post_list_used dops s s' tname rset pl h,
      (MultiDatabase.open_post_list_frame dops s s' tname rset pl h).2,
      (MultiDatabase.open_post_list_frame dops s s' tname rset pl h).1⟩
  have htl : ∀ did tl s', MultiDatabase.open_term_list dops s did = .ok (tl, s') →
      s'.used = true ∧ s'.databases = s.databases ∧ s'.opened = s.opened :=
    fun did tl s' h => ⟨(MultiDatabase.open_term_list_used dops s s' did tl h).1,
      (MultiDatabase.open_term_list_frame dops s s' did tl h).2,
      (MultiDatabase.open_term_list_frame dops s s' did tl h).1⟩
  have hdoc : ∀ did doc s', MultiDatabase.open_document dops s did = .ok (doc, s') →
      s'.used = true ∧ s'.databases = s.databases ∧ s'.opened = s.opened :=
    fun did doc s' h => ⟨(MultiDatabase.open_document_used dops s s' did doc h).1,
      (MultiDatabase.open_document_frame dops s s' did doc h).2,
      (MultiDatabase.open_document_frame dops s s' did doc h).1⟩
  have hfail := MultiDatabase.reads_fail_unopened dops s
  refine ⟨fun h tname rset did => hfail h tname rset did,
    MultiDatabase.neverOpened_opened dops s, ⟨hte, hpl, htl, hdoc⟩, ?_, ?_⟩
  · intro hu s' hl
    obtain ⟨h1, h2⟩ := MultiDatabase.later_used dops s s' hu hl
    exact ⟨h1, h2, by rw [h2], fun params => MultiDatabase.open_fails_used dops s' h1 params,
      fun db => MultiDatabase.set_root_fails_used dops s' h1 db⟩
  · intro s1 hread s2 hl
    have hopen : s.opened = true := MultiDatabase.readReturns_opened dops s s1 hread
    have h1 : s1.used = true ∧ s1.databases = s.databases ∧ s1.opened = s.opened := by
      rcases hread with ⟨tname, b, h⟩ | ⟨tname, rset, pl, h⟩ | ⟨did, tl, h⟩ | ⟨did, doc, h⟩
      · exact hte tname b s1 h
      · exact hpl tname rset pl s1 h
      · exact htl did tl s1 h
      · exact hdoc did doc s1 h
    obtain ⟨h2, h3⟩ := MultiDatabase.later_used dops s1 s2 h1.1 hl
    have h4 : s2.opened = true := by
      have := MultiDatabase.later_opened dops s1 s2 h1.1 hl
      rw [this, h1.2.2, hopen]
    exact ⟨h2, h3.trans h1.2.1, by rw [h3, h1.2.1], h4,
      fun params => MultiDatabase.open_fails_used dops s2 h2 params,
      fun db => MultiDatabase.set_root_fails_used dops s2 h2 db⟩

/-- Witness of C18: on a newly constructed database `term_exists` fails, and on the
example database after `open_document(8)` has run, `used` is set, `databases` is what it
was, and `open()` fails. -/
theorem open_before_use_no_mutation_after_witness :
    MultiDatabase.term_exists exampleDops
      (MultiDatabase.create : MultiDatabase (List (String × List (Nat × Nat))) Unit) "a"
      = .error Fault.assertion ∧
    ∃ doc s', MultiDatabase.open_document exampleDops exampleDatabase 8 = .ok (doc, s') ∧
      s'.used = true ∧ s'.databases = exampleDatabase.databases ∧
      MultiDatabase.open_ exampleDops s' exampleParams = .error Fault.assertion :=
  ⟨((open_before_use_no_mutation_after exampleDops MultiDatabase.create).1 rfl "a" () 0).1,
    _, _, rfl, rfl,
    ((open_before_use_no_mutation_after exampleDops exampleDatabase).2.2.2.2
      _ (Or.inr (Or.inr (Or.inr ⟨8, _, rfl⟩))) _ MultiDatabase.Later.refl).2.1,
    ((open_before_use_no_mutation_after exampleDops exampleDatabase).2.2.2.2
      _ (Or.inr (Or.inr (Or.inr ⟨8, _, rfl⟩))) _ MultiDatabase.Later.refl).2.2.2.2.1
      exampleParams⟩

/-! ## C20 -/

namespace MultiDatabase

variable {δ σ R D T ρ : Type}

theorem term_exists_cacheSound (dops : IRDatabaseOps δ σ R D T ρ) (s s' : MultiDatabase δ ρ)
    (tname : String) (b : Bool) (hs : ∀ t ∈ s.terms, ∃ d ∈ s.databases, dops.term_exists d t = true)
    (h : term_exists dops s tname = .ok (b, s')) : CacheSound dops s' := by
  obtain ⟨_, hdb, hu, hcase⟩ := term_exists_cases dops s s' tname b h
  refine ⟨?_, fun hf => by rw [hu] at hf; cases hf⟩
  rw [hdb]
  rcases hcase with ⟨_, _, ht⟩ | ⟨_, hl, _, ht⟩ | ⟨_, _, _, ht⟩
  · rw [ht]; exact hs
  · rw [ht]
    intro t hmem
    rcases List.mem_cons.mp hmem with rfl | hmem
    · exact (term_exists_loop_eq_true dops _ _).mp hl
    · exact hs t hmem
  · rw [ht]; exact hs

/-- In every reachable state the cache holds only terms that some sub-database has. -/
theorem reachable_cacheSound (dops : IRDatabaseOps δ σ R D T ρ) (s : MultiDatabase δ ρ)
    (hr : Reachable dops s) : CacheSound dops s := by
  induction hr with
  | create => exact ⟨fun t ht => (by cases ht), fun _ => rfl⟩
  | set_root s s' db _ h ih =>
    unfold set_root at h
    split at h
    · cases h
    · rename_i hu
      cases h
      have hnil : s.terms = [] := ih.2 (by simpa using hu)
      exact ⟨fun t ht => (by simp only [hnil] at ht; cases ht), fun _ => hnil⟩
  | open_ s s' params _ h ih =>
    unfold open_ at h
    split at h
    · cases h
    · rename_i hu
      have hnil : s.terms = [] := ih.2 (by simpa using hu)
      split at h
      · cases h
      · split at h
        · cases h
        · cases h
          exact ⟨fun t ht => (by simp only [hnil] at ht; cases ht), fun _ => hnil⟩
  | term_exists s s' tname b _ h ih => exact term_exists_cacheSound dops s s' tname b ih.1 h
  | open_post_list s s' tname rset pl _ h ih =>
    obtain ⟨b, hb⟩ := open_post_list_term_exists dops s s' tname rset pl h
    exact term_exists_cacheSound dops _ s' tname b ih.1 hb
  | open_term_list s s' did tl _ h ih =>
    obtain ⟨hu, ht⟩ := open_term_list_used dops s s' did tl h
    refine ⟨?_, fun hf => by rw [hu] at hf; cases hf⟩
    rw [ht, (open_term_list_frame dops s s' did tl h).2]
    exact ih.1
  | open_document s s' did doc _ h ih =>
    obtain ⟨hu, ht⟩ := open_document_used dops s s' did doc h
    refine ⟨?_, fun hf => by rw [hu] at hf; cases hf⟩
    rw [ht, (open_document_frame dops s s' did doc h).2]
    exact ih.1

end MultiDatabase

/-- C20: the term cache never changes the answer.  In every state of a `MultiDatabase`
reachable from its constructor (the cache starts empty), the cache `terms` holds only
terms that some sub-database reports as existing; and when the database is opened,
`term_exists(t)` returns, its result is true if and only if at least one sub-database's
`term_exists(t)` is true, a negative result leaves the cache as it was, and the only term
it can add to the cache is `t` with a positive result. -/
theorem term_cache_never_changes_answer {δ σ R D T ρ : Type}
    (dops : IRDatabaseOps δ σ R D T ρ) (s : MultiDatabase δ ρ)
    (hr : MultiDatabase.Reachable dops s) :
    (∀ t ∈ s.terms, ∃ d ∈ s.databases, dops.term_exists d t = true) ∧
    (s.opened = true → ∀ t, ∃ b s', MultiDatabase.term_exists dops s t = .ok (b, s') ∧
      (b = true ↔ ∃ d ∈ s.databases, dops.term_exists d t = true) ∧
      (b = false → s'.terms = s.terms) ∧
      (∀ t' ∈ s'.terms, t' ∈ s.terms ∨ (t' = t ∧ b = true)) ∧
      (∀ t' ∈ s'.terms, ∃ d ∈ s'.databases, dops.term_exists d t' = true)) := by
  have hcs := MultiDatabase.reachable_cacheSound dops s hr
  refine ⟨hcs.1, fun hopen t => ?_⟩
  obtain ⟨b, terms', hte, _, _⟩ := MultiDatabase.term_exists_opened dops s t hopen
  refine ⟨b, _, hte, ?_⟩
  obtain ⟨_, _, _, hcase⟩ := MultiDatabase.term_exists_cases dops s _ t b hte
  have hsound := (MultiDatabase.term_exists_cacheSound dops s _ t b hcs.1 hte).1
  rcases hcase with ⟨hmem, hb, ht⟩ | ⟨_, hl, hb, ht⟩ | ⟨_, hl, hb, ht⟩
  · refine ⟨⟨fun _ => hcs.1 t hmem, fun _ => hb⟩, fun hf => (by rw [hb] at hf; cases hf), ?_, hsound⟩
    intro t' ht'
    rw [ht] at ht'
    exact Or.inl ht'
  · refine ⟨⟨fun _ => (MultiDatabase.term_exists_loop_eq_true dops _ _).mp hl, fun _ => hb⟩,
      fun hf => (by rw [hb] at hf; cases hf), ?_, hsound⟩
    intro t' ht'
    rw [ht] at ht'
    rcases List.mem_cons.mp ht' with rfl | h
    · exact Or.inr ⟨rfl, hb⟩
    · exact Or.inl h
  · refine ⟨⟨fun hbt => (by rw [hb] at hbt; cases hbt), fun hex => ?_⟩, fun _ => ht, ?_, hsound⟩
    · have := (MultiDatabase.term_exists_loop_eq_true dops t s.databases).mpr hex
      rw [hl] at this
      cases this
    · intro t' ht'
      rw [ht] at ht'
      exact Or.inl ht'

/-- Witness of C20: on the database opened over the three example sub-databases,
`term_exists("a")` answers `true` and caches `"a"`, and `term_exists("z")` then answers
`false` and leaves the cache `["a"]`, every term of which a sub-database has. -/
theorem term_cache_never_changes_answer_witness :
    ∃ s, MultiDatabase.open_ exampleDops MultiDatabase.create exampleParams = .ok s ∧
      ∃ s', MultiDatabase.term_exists exampleDops s "a" = .ok (true, s') ∧ s'.terms = ["a"] ∧
        ∃ s'', MultiDatabase.term_exists exampleDops s' "z" = .ok (false, s'') ∧
          s''.terms = ["a"] ∧
          ∀ t ∈ s''.terms, ∃ d ∈ s''.databases, exampleDops.term_exists d t = true :=
  ⟨_, rfl, _, rfl, rfl, _, rfl, rfl,
    (term_cache_never_changes_answer exampleDops _
      (MultiDatabase.Reachable.term_exists _ _ "z" false
        (MultiDatabase.Reachable.term_exists _ _ "a" true
          (MultiDatabase.Reachable.open_ _ _ exampleParams MultiDatabase.Reachable.create rfl)
          rfl) rfl)).1⟩

/-! ## C15 -/

namespace HoneyTable

theorem greatest_checkpoint_spec (key : String) (cps : List (String × Nat))
    (cp : String × Nat) (h : greatest_checkpoint key cps = some cp) :
    cp ∈ cps ∧ ¬ key < cp.1 := by
  induction cps generalizing cp with
  | nil => simp [greatest_checkpoint] at h
  | cons c rest ih =>
    unfold greatest_checkpoint at h
    cases hrec : greatest_checkpoint key rest with
    | none =>
      rw [hrec] at h
      simp only at h
      split at h
      · cases h
      · rename_i hlt
        cases h
        exact ⟨List.mem_cons_self _ _, fun hk => hlt (String.lt_iff_toList_lt.mp hk)⟩
    | some b =>
      rw [hrec] at h
      simp only at h
      obtain ⟨hb1, hb2⟩ := ih b hrec
      split at h
      · cases h
        exact ⟨List.mem_cons_of_mem _ hb1, hb2⟩
      · rename_i hlt
        split at h
        · cases h
          exact ⟨List.mem_cons_self _ _, fun hk => hlt (String.lt_iff_toList_lt.mp hk)⟩
        · cases h
          exact ⟨List.mem_cons_of_mem _ hb1, hb2⟩

/-- The forward scan over entries with strictly increasing keys: it ends without an entry
only if all keys are smaller than the target, and the entry it finds is the one with the
least key not smaller than the target. -/
theorem scan_forward_spec (key : String) (l : List (String × String))
    (hs : (l.map Prod.fst).Pairwise (· < ·)) (pos : Nat) :
    ((scan_forward key l pos).2 = none → ∀ e ∈ l, e.1 < key) ∧
    (∀ e, (scan_forward key l pos).2 = some e →
      e ∈ l ∧ key ≤ e.1 ∧ ∀ e' ∈ l, key ≤ e'.1 → e.1 ≤ e'.1) := by
  induction l generalizing pos with
  | nil => exact ⟨fun _ e he => (by cases he), fun e he => (by simp [scan_forward] at he)⟩
  | cons a rest ih =>
    rw [List.map_cons, List.pairwise_cons] at hs
    obtain ⟨ha, hrest⟩ := hs
    obtain ⟨ih1, ih2⟩ := ih hrest (pos + 1)
    unfold scan_forward
    by_cases hlt : a.1.toList < key.toList
    · have hak : a.1 < key := String.lt_iff_toList_lt.mpr hlt
      rw [if_pos hlt]
      refine ⟨fun hn e he => ?_, fun e he => ?_⟩
      · rcases List.mem_cons.mp he with rfl | he
        · exact hak
        · exact ih1 hn e he
      · obtain ⟨h1, h2, h3⟩ := ih2 e he
        refine ⟨List.mem_cons_of_mem _ h1, h2, fun e' he' hk => ?_⟩
        rcases List.mem_cons.mp he' with rfl | he'
        · exact absurd hak (not_lt.mpr hk)
        · exact h3 e' he' hk
    · have hka : key ≤ a.1 := not_lt.mp (fun h => hlt (String.lt_iff_toList_lt.mp h))
      rw [if_neg hlt]
      refine ⟨fun hn => (by cases hn), fun e he => ?_⟩
      simp only [Option.some.injEq] at he
      subst he
      refine ⟨List.mem_cons_self _ _, hka, fun e' he' _ => ?_⟩
      rcases List.mem_cons.mp he' with rfl | he'
      · exact le_refl _
      · exact le_of_lt (ha e'.1 (List.mem_map_of_mem _ he'))

/-- The entries before the checkpoint that `do_find` starts from have keys smaller than
the target. -/
theorem before_start (t : HoneyTable) (hwf : t.WellFormed) (key : String) :
    ∀ a ∈ t.entries.take
        (match greatest_checkpoint key t.checkpoints with
          | some cp => cp.2
          | none => 0),
      a.1 < key := by
  cases hcp : greatest_checkpoint key t.checkpoints with
  | none => intro a ha; simp at ha
  | some cp =>
    simp only
    obtain ⟨hmem, hle⟩ := greatest_checkpoint_spec key _ cp hcp
    obtain ⟨tag, hget⟩ := hwf.2 cp hmem
    obtain ⟨hlt, hgetE⟩ := List.getElem?_eq_some_iff.mp hget
    have hsplit : t.entries = t.entries.take cp.2 ++ (cp.1, tag) :: t.entries.drop (cp.2 + 1) := by
      conv_lhs => rw [← List.take_append_drop cp.2 t.entries]
      rw [List.drop_eq_getElem_cons hlt, hgetE]
    have hs := hwf.1
    rw [hsplit, List.map_append, List.pairwise_append] at hs
    intro a ha
    have h1 : a.1 < cp.1 :=
      hs.2.2 a.1 (List.mem_map_of_mem _ ha) cp.1 (by simp)
    exact lt_of_lt_of_le h1 (not_lt.mp hle)

end HoneyTable

/-- What `do_find` does on a well-formed table: either every key is smaller than the
target and the cursor is left after the last entry with the result false, or the entry
with the least key not smaller than the target is found, and the result and the cursor
left depend on whether that key is the target and on `greater_than`. -/
theorem HoneyCursor.do_find_spec (t : HoneyTable) (hwf : t.WellFormed) (c : HoneyCursor)
    (key : String) (greater_than : Bool) :
    ((∀ e ∈ t.entries, e.1 < key) ∧
      (HoneyCursor.do_find t c key greater_than).1 = false ∧
      (HoneyCursor.do_find t c key greater_than).2.is_at_end = true) ∨
    (∃ pos, ∃ e ∈ t.entries, key ≤ e.1 ∧ (∀ e' ∈ t.entries, key ≤ e'.1 → e.1 ≤ e'.1) ∧
      HoneyCursor.do_find t c key greater_than =
        if e.1 = key then (true, c.land pos e)
        else if greater_than then (false, c.land pos e)
        else (false, c.rewind)) := by
  have hpre := HoneyTable.before_start t hwf key
  unfold HoneyCursor.do_find
  simp only
  generalize hstart : (match HoneyTable.greatest_checkpoint key t.checkpoints with
    | some cp => cp.2
    | none => 0) = start at hpre ⊢
  have hsorted : ((t.entries.drop start).map Prod.fst).Pairwise (· < ·) := by
    rw [List.map_drop]
    exact hwf.1.sublist (List.drop_sublist _ _)
  obtain ⟨h1, h2⟩ := HoneyTable.scan_forward_spec key (t.entries.drop start) hsorted start
  have hmem : ∀ e ∈ t.entries, e ∈ t.entries.take start ∨ e ∈ t.entries.drop start := by
    intro e he
    rw [← List.take_append_drop start t.entries] at he
    exact List.mem_append.mp he
  cases hscan : HoneyTable.scan_forward key (t.entries.drop start) start with
  | mk pos r =>
    rw [hscan] at h1 h2
    cases r with
    | none =>
      left
      refine ⟨fun e he => ?_, rfl, rfl⟩
      rcases hmem e he with h | h
      · exact hpre e h
      · exact h1 rfl e h
    | some e =>
      right
      obtain ⟨he1, he2, he3⟩ := h2 e rfl
      refine ⟨pos, e, List.mem_of_mem_drop he1, he2, fun e' he' hk => ?_, rfl⟩
      rcases hmem e' he' with h | h
      · exact absurd (hpre e' h) (not_lt.mpr hk)
      · exact he3 e' h hk

/-- C15: the key search contract of the table cursor, for the search as the specification
describes it, on every table with strictly increasing keys and checkpoints that name
entries of the table, from every cursor state and for every key `K`:
if `K` is stored then `find_exact(K)` returns true and leaves `current_key == K` (not
after-last); if `K` is not stored then `find_entry_ge(K)` returns false and leaves the
cursor on the smallest stored key greater than `K`, or after-last (`after_end()` true)
when no stored key is greater than `K`. -/
theorem key_search_contract (t : HoneyTable) (hwf : t.WellFormed) (c : HoneyCursor)
    (K : String) :
    ((∃ tag, (K, tag) ∈ t.entries) →
      (HoneyCursor.find_exact t c K).1 = true ∧
      (HoneyCursor.find_exact t c K).2.current_key = K ∧
      (HoneyCursor.find_exact t c K).2.after_end = false) ∧
    ((∀ e ∈ t.entries, e.1 ≠ K) →
      (HoneyCursor.find_entry_ge t c K).1 = false ∧
      ((∃ e ∈ t.entries, K < e.1 ∧ (∀ e' ∈ t.entries, K < e'.1 → e.1 ≤ e'.1) ∧
          (HoneyCursor.find_entry_ge t c K).2.current_key = e.1 ∧
          (HoneyCursor.find_entry_ge t c K).2.after_end = false) ∨
       ((∀ e ∈ t.entries, ¬ K < e.1) ∧
          (HoneyCursor.find_entry_ge t c K).2.after_end = true))) := by
  refine ⟨fun hstored => ?_, fun habsent => ?_⟩
  · obtain ⟨tag, hmem⟩ := hstored
    unfold HoneyCursor.find_exact
    rcases HoneyCursor.do_find_spec t hwf c K false with ⟨hall, _, _⟩ | ⟨pos, e, he, hle, hmin, heq⟩
    · exact absurd (hall (K, tag) hmem) (lt_irrefl K)
    · have hek : e.1 = K := le_antisymm (hmin (K, tag) hmem (le_refl K)) hle
      rw [heq, if_pos hek]
      exact ⟨rfl, hek, rfl⟩
  · unfold HoneyCursor.find_entry_ge
    rcases HoneyCursor.do_find_spec t hwf c K true with ⟨hall, h1, h2⟩ | ⟨pos, e, he, hle, hmin, heq⟩
    · exact ⟨h1, Or.inr ⟨fun e he => lt_asymm (hall e he), h2⟩⟩
    · have hne : ¬ e.1 = K := habsent e he
      have hlt : K < e.1 := lt_of_le_of_ne hle (fun h => hne h.symm)
      rw [heq, if_neg hne, if_pos rfl]
      exact ⟨rfl, Or.inl ⟨e, he, hlt, fun e' he' hk => hmin e' he' (le_of_lt hk), rfl, rfl⟩⟩

theorem exampleTable_wellFormed : exampleTable.WellFormed := by
  refine ⟨?_, ?_⟩
  · simp only [exampleTable, List.map_cons, List.map_nil, List.pairwise_cons, List.mem_cons,
      List.mem_singleton, forall_eq_or_imp, forall_eq, String.lt_iff_toList_lt]
    decide
  · intro c hc
    simp only [exampleTable, List.mem_cons, List.mem_singleton, List.not_mem_nil, or_false] at hc
    rcases hc with rfl | rfl | rfl <;> simp [exampleTable]

/-- Witness of C15 on a table with the keys `ant`, `bee`, `cat`, `dog`, `eel`:
`find_exact("dog")` returns true on key `dog`; `find_entry_ge("cow")` returns false on
key `dog`; `find_entry_ge("fox")` returns false after the last entry. -/
theorem key_search_contract_witness :
    exampleTable.WellFormed ∧
    ((HoneyCursor.find_exact exampleTable exampleCursor "dog").1 = true ∧
      (HoneyCursor.find_exact exampleTable exampleCursor "dog").2.current_key = "dog" ∧
      (HoneyCursor.find_exact exampleTable exampleCursor "dog").2.after_end = false) ∧
    (HoneyCursor.find_entry_ge exampleTable exampleCursor "cow").1 = false ∧
    (HoneyCursor.find_entry_ge exampleTable exampleCursor "cow").2.current_key = "dog" ∧
    (HoneyCursor.find_entry_ge exampleTable exampleCursor "fox").1 = false ∧
    (HoneyCursor.find_entry_ge exampleTable exampleCursor "fox").2.after_end = true :=
  ⟨exampleTable_wellFormed,
    (key_search_contract exampleTable exampleTable_wellFormed exampleCursor "dog").1
      ⟨"4", by decide⟩,
    by decide, by decide, by decide, by decide⟩

end Xapian
